import Mathlib

/-!
Verification of the masking/unmasking and markup-reinsertion core of the
`mtrain` repository (`mtrain/preprocessing/masking.py`,
`mtrain/preprocessing/cleaner.py`, `mtrain/preprocessing/reinsertion.py`,
with constants from `mtrain/constants.py`).

Strings are shallowly embedded as `List Char`; Python's `str.replace`,
`str.split(" ")` and `" ".join` are modelled by executable functions below.
The external regular-expression engine (`re.sub`) is modelled by an oracle
that supplies, for a pattern and a subject string, the decomposition of the
subject into non-matching gaps and matched spans; theorems assume only that
the decomposition reassembles to the subject, which is true of the real
engine for any pattern.
-/

set_option maxHeartbeats 1000000

namespace Mtrain

/-- Python strings, embedded as lists of characters. -/
abbrev Str := List Char

/-- Convenience: the character list of a string literal. -/
def lit (s : String) : Str := s.toList

/-! ## Python string primitives -/

/-- Python `s.split(" ")`: split at every single space character; empty
fields are kept, and the result is always non-empty (`"".split(" ") == [""]`). -/
def splitOnSpace : Str → List Str
  | [] => [[]]
  | c :: cs =>
    let rest := splitOnSpace cs
    if c = ' ' then [] :: rest
    else
      match rest with
      | [] => [[c]]
      | t :: ts => (c :: t) :: ts

/-- Python `" ".join(tokens)`. -/
def joinSpace : List Str → Str
  | [] => []
  | [t] => t
  | t :: ts => t ++ ' ' :: joinSpace ts

/-- Python `s.replace(p, r, 1)`: replace the first (leftmost) occurrence of
`p` in `s` by `r`, scanning left to right. (Not used with `p = []`.) -/
def replaceFirst (p r : Str) : Str → Str
  | [] => []
  | c :: cs =>
    if p.isPrefixOf (c :: cs) then r ++ (c :: cs).drop p.length
    else c :: replaceFirst p r cs

/-- Fuel-driven worker for `replaceAll`; the fuel only serves to make the
definition structurally recursive, `replaceAll` supplies enough of it. -/
def replaceAllF (p r : Str) : Nat → Str → Str
  | 0, s => s
  | fuel + 1, s =>
    match s with
    | [] => []
    | c :: cs =>
      if p.isPrefixOf (c :: cs) then r ++ replaceAllF p r fuel ((c :: cs).drop p.length)
      else c :: replaceAllF p r fuel cs

/-- Python `s.replace(p, r)`: replace every non-overlapping occurrence of
`p` in `s` by `r`, scanning left to right. (Not used with `p = []`, where
Python would interleave `r` between all characters.) -/
def replaceAll (p r s : Str) : Str := replaceAllF p r s.length s

/-- Decidable "p occurs as a contiguous substring of s". -/
def containsSub (p : Str) : Str → Bool
  | [] => p.isPrefixOf []
  | c :: cs => p.isPrefixOf (c :: cs) || containsSub p cs

/-! ### Basic lemmas about the string primitives -/

theorem isPrefixOf_append_self (p v : Str) : p.isPrefixOf (p ++ v) = true := by
  induction p with
  | nil => simp [List.isPrefixOf]
  | cons c cs ih => simpa [List.isPrefixOf] using ih

theorem isPrefixOf_iff_exists (p s : Str) :
    p.isPrefixOf s = true ↔ ∃ t, s = p ++ t := by
  induction p generalizing s with
  | nil => simp [List.isPrefixOf]
  | cons c cs ih =>
    cases s with
    | nil => simp [List.isPrefixOf]
    | cons d ds =>
      simp only [List.isPrefixOf, Bool.and_eq_true, beq_iff_eq, ih]
      constructor
      · rintro ⟨rfl, t, rfl⟩; exact ⟨t, rfl⟩
      · rintro ⟨t, h⟩
        injection h with h1 h2
        exact ⟨h1.symm, t, h2⟩

theorem containsSub_iff (p s : Str) :
    containsSub p s = true ↔ ∃ a b, s = a ++ p ++ b := by
  induction s with
  | nil =>
    simp only [containsSub, isPrefixOf_iff_exists]
    constructor
    · rintro ⟨t, h⟩
      exact ⟨[], t, by simpa using h⟩
    · rintro ⟨a, b, h⟩
      rcases List.append_eq_nil.mp h.symm with ⟨h1, h2⟩
      rcases List.append_eq_nil.mp h1 with ⟨rfl, rfl⟩
      exact ⟨b, by simpa using h.symm⟩
  | cons c cs ih =>
    simp only [containsSub, Bool.or_eq_true, isPrefixOf_iff_exists, ih]
    constructor
    · rintro (⟨t, h⟩ | ⟨a, b, h⟩)
      · exact ⟨[], t, by simpa using h⟩
      · exact ⟨c :: a, b, by simp [h]⟩
    · rintro ⟨a, b, h⟩
      cases a with
      | nil => exact Or.inl ⟨b, by simpa using h⟩
      | cons x xs =>
        injection h with h1 h2
        exact Or.inr ⟨xs, b, h2⟩

/-- Fuel irrelevance: any fuel at least the length of the subject computes
`replaceAll`, provided the pattern is non-empty. -/
theorem replaceAllF_fuel (p r : Str) (hp : p ≠ []) :
    ∀ fuel₁ fuel₂ s, s.length ≤ fuel₁ → s.length ≤ fuel₂ →
      replaceAllF p r fuel₁ s = replaceAllF p r fuel₂ s := by
  intro fuel₁
  induction fuel₁ with
  | zero =>
    intro fuel₂ s h1 _
    have : s = [] := List.eq_nil_of_length_eq_zero (Nat.le_zero.mp h1)
    subst this
    cases fuel₂ <;> rfl
  | succ f ih =>
    intro fuel₂ s h1 h2
    cases fuel₂ with
    | zero =>
      have : s = [] := List.eq_nil_of_length_eq_zero (Nat.le_zero.mp h2)
      subst this; rfl
    | succ g =>
      cases s with
      | nil => rfl
      | cons c cs =>
        simp only [replaceAllF]
        by_cases hpre : p.isPrefixOf (c :: cs) = true
        · simp only [hpre, if_true]
          rcases (isPrefixOf_iff_exists p (c :: cs)).mp hpre with ⟨t, ht⟩
          have hlen : ((c :: cs).drop p.length).length ≤ f ∧
              ((c :: cs).drop p.length).length ≤ g := by
            have hplen : 1 ≤ p.length := by
              cases p with
              | nil => exact absurd rfl hp
              | cons _ _ => simp
            have : ((c :: cs).drop p.length).length = (c :: cs).length - p.length := by
              simp
            constructor
            · omega
            · omega
          exact congrArg (r ++ ·) (ih g _ hlen.1 hlen.2)
        · simp only [hpre, if_false]
          have : cs.length ≤ f := by simpa using Nat.le_of_succ_le_succ h1
          have h2' : cs.length ≤ g := by simpa using Nat.le_of_succ_le_succ h2
          exact congrArg (c :: ·) (ih g cs this h2')

theorem replaceAll_nil (p r : Str) : replaceAll p r [] = [] := by
  simp [replaceAll, replaceAllF]

theorem replaceAll_cons (p r : Str) (hp : p ≠ []) (c : Char) (cs : Str) :
    replaceAll p r (c :: cs) =
      if p.isPrefixOf (c :: cs) then r ++ replaceAll p r ((c :: cs).drop p.length)
      else c :: replaceAll p r cs := by
  have hplen : 1 ≤ p.length := by
    cases p with
    | nil => exact absurd rfl hp
    | cons _ _ => simp
  show replaceAllF p r (cs.length + 1) (c :: cs) = _
  simp only [replaceAllF]
  by_cases hpre : p.isPrefixOf (c :: cs) = true
  · simp only [hpre, if_true]
    refine congrArg (r ++ ·) (replaceAllF_fuel p r hp _ _ _ ?_ ?_)
    · simp only [List.length_drop, List.length_cons]
      omega
    · exact Nat.le_refl _
  · simp only [hpre, if_false]
    exact congrArg (c :: ·) (replaceAllF_fuel p r hp _ _ _ (Nat.le_refl _) (Nat.le_refl _))

/-! ## `mtrain/preprocessing/cleaner.py` and `MOSES_SPECIAL_CHARS`
from `mtrain/constants.py` -/

/-- The ordered replacement table `MOSES_SPECIAL_CHARS` of `constants.py`:
replacement is ordered, the first pair is applied first. -/
def MOSES_SPECIAL_CHARS : List (Char × Str) :=
  [('&', lit "&amp;"), ('|', lit "&#124;"), ('<', lit "&lt;"), ('>', lit "&gt;"),
   ('"', lit "&quot;"), ('\'', lit "&apos;"), ('[', lit "&#91;"), (']', lit "&#93;")]

/-- `cleaner.escape_special_chars`: for each pair of the table in order,
replace every occurrence of the character by its entity. -/
def escape_special_chars (segment : Str) : Str :=
  MOSES_SPECIAL_CHARS.foldl (fun seg cr => replaceAll [cr.1] cr.2 seg) segment

/-- `cleaner.deescape_special_chars`: for each pair of the table in reverse
order, replace every occurrence of the entity by its character. -/
def deescape_special_chars (segment : Str) : Str :=
  MOSES_SPECIAL_CHARS.reverse.foldl (fun seg cr => replaceAll cr.2 [cr.1] seg) segment

/-! ### Characterisation of escaping as a character-wise encoding -/

/-- Mapping of a single character under the full escape table. -/
def encodeChar (c : Char) : Str :=
  if c = '&' then lit "&amp;" else if c = '|' then lit "&#124;"
  else if c = '<' then lit "&lt;" else if c = '>' then lit "&gt;"
  else if c = '"' then lit "&quot;" else if c = '\'' then lit "&apos;"
  else if c = '[' then lit "&#91;" else if c = ']' then lit "&#93;" else [c]

/-- Character-wise concatenation map on strings. -/
def concatMap (f : Char → Str) : Str → Str
  | [] => []
  | c :: cs => f c ++ concatMap f cs

/-- Replacing a single character with a function step. -/
def step (c : Char) (r : Str) (x : Char) : Str := if x = c then r else [x]

theorem concatMap_append (f : Char → Str) (a b : Str) :
    concatMap f (a ++ b) = concatMap f a ++ concatMap f b := by
  induction a with
  | nil => rfl
  | cons c cs ih => simp [concatMap, ih]

theorem concatMap_singleton (s : Str) : concatMap (fun x => [x]) s = s := by
  induction s with
  | nil => rfl
  | cons c cs ih => simp [concatMap, ih]

theorem concatMap_congr (f g : Char → Str) (h : ∀ x, f x = g x) (s : Str) :
    concatMap f s = concatMap g s := by
  induction s with
  | nil => rfl
  | cons c cs ih => simp [concatMap, ih, h]

theorem concatMap_concatMap (f g : Char → Str) (s : Str) :
    concatMap g (concatMap f s) = concatMap (fun x => concatMap g (f x)) s := by
  induction s with
  | nil => rfl
  | cons c cs ih => simp [concatMap, concatMap_append, ih]

theorem replaceAll_single (c : Char) (r : Str) (s : Str) :
    replaceAll [c] r s = concatMap (step c r) s := by
  induction s with
  | nil => simp [replaceAll_nil, concatMap]
  | cons x xs ih =>
    rw [replaceAll_cons [c] r (by simp) x xs]
    by_cases hx : x = c
    · subst hx
      have hpre : ([x] : Str).isPrefixOf (x :: xs) = true := by simp [List.isPrefixOf]
      rw [hpre]
      simp only [if_true, List.drop_succ_cons, List.drop_zero]
      show r ++ replaceAll [x] r xs = step x r x ++ concatMap (step x r) xs
      rw [ih]
      simp [step]
    · have hpre : ([c] : Str).isPrefixOf (x :: xs) = false := by
        simp only [List.isPrefixOf, Bool.and_eq_true, beq_iff_eq]
        simp only [Bool.and_eq_false_iff]
        left
        simp only [beq_eq_false_iff_ne, ne_eq]
        exact fun h => hx h.symm
      rw [hpre]
      simp only [Bool.false_eq_true, if_false]
      show x :: replaceAll [c] r xs = step c r x ++ concatMap (step c r) xs
      rw [ih]
      simp [step, hx]

theorem escape_eq_concatMap (s : Str) :
    escape_special_chars s = concatMap encodeChar s := by
  have hstep : ∀ (c : Char) (r : Str) (f : Char → Str) (u : Str),
      replaceAll [c] r (concatMap f u) =
        concatMap (fun x => concatMap (step c r) (f x)) u := by
    intro c r f u
    rw [replaceAll_single, concatMap_concatMap]
  have hseed : s = concatMap (fun x => [x]) s := (concatMap_singleton s).symm
  unfold escape_special_chars MOSES_SPECIAL_CHARS
  simp only [List.foldl_cons, List.foldl_nil]
  rw [hseed, hstep, hstep, hstep, hstep, hstep, hstep, hstep, hstep, concatMap_singleton]
  refine concatMap_congr _ _ ?_ s
  intro x
  by_cases h1 : x = '&'
  · subst h1; decide
  by_cases h2 : x = '|'
  · subst h2; decide
  by_cases h3 : x = '<'
  · subst h3; decide
  by_cases h4 : x = '>'
  · subst h4; decide
  by_cases h5 : x = '"'
  · subst h5; decide
  by_cases h6 : x = '\''
  · subst h6; decide
  by_cases h7 : x = '['
  · subst h7; decide
  by_cases h8 : x = ']'
  · subst h8; decide
  simp [concatMap, step, encodeChar, h1, h2, h3, h4, h5, h6, h7, h8]

/-! ### De-escaping inverts escaping -/

theorem replaceAll_skip (p r t : Str) (hp : p = '&' :: t) :
    ∀ u v, (∀ ch ∈ u, ch ≠ '&') → replaceAll p r (u ++ v) = u ++ replaceAll p r v := by
  intro u
  induction u with
  | nil => intro v _; rfl
  | cons c u' ih =>
    intro v hu
    have hc : c ≠ '&' := hu c (by simp)
    have hpre : p.isPrefixOf (c :: (u' ++ v)) = false := by
      subst hp
      simp only [List.isPrefixOf, Bool.and_eq_false_iff]
      left
      simp only [beq_eq_false_iff_ne, ne_eq]
      exact fun h => hc h.symm
    rw [List.cons_append, replaceAll_cons p r (by simp [hp]) c (u' ++ v), hpre]
    simp only [Bool.false_eq_true, if_false]
    rw [ih v (fun ch hch => hu ch (by simp [hch]))]
    rfl

theorem replaceAll_head_match (p r v : Str) (hp : p ≠ []) :
    replaceAll p r (p ++ v) = r ++ replaceAll p r v := by
  cases p with
  | nil => exact absurd rfl hp
  | cons q t =>
    rw [List.cons_append, replaceAll_cons (q :: t) r hp q (t ++ v)]
    have h1 : (q :: t).isPrefixOf (q :: (t ++ v)) = true := by
      simpa using isPrefixOf_append_self (q :: t) v
    rw [h1]
    simp only [if_true]
    congr 1
    have : (q :: (t ++ v)) = (q :: t) ++ v := by simp
    rw [this, List.drop_left]

theorem append_isPrefixOf_comm (a : Str) :
    ∀ (b x y : Str), a ++ x = b ++ y →
      a.isPrefixOf b = true ∨ b.isPrefixOf a = true := by
  induction a with
  | nil => intro b x y _; left; simp [List.isPrefixOf]
  | cons c a' ih =>
    intro b x y h
    cases b with
    | nil => right; simp [List.isPrefixOf]
    | cons d b' =>
      injection h with h1 h2
      subst h1
      rcases ih b' x y h2 with h | h
      · left; simpa [List.isPrefixOf] using h
      · right; simpa [List.isPrefixOf] using h

/-- A block is safe for a pass with pattern `p` (which starts with `&`) if it
is a non-empty run of non-`&` characters, or an entity: `&` followed by
non-`&` characters, neither a prefix of `p` nor extended by it. -/
def BlockOK (p : Str) : Str → Prop
  | [] => False
  | c :: t =>
    (c ≠ '&' ∧ ∀ ch ∈ t, ch ≠ '&') ∨
    (c = '&' ∧ (∀ ch ∈ t, ch ≠ '&') ∧
      p.isPrefixOf (c :: t) = false ∧ (c :: t).isPrefixOf p = false)

theorem replaceAll_block (p r u v t : Str) (hp : p = '&' :: t) (hu : BlockOK p u) :
    replaceAll p r (u ++ v) = u ++ replaceAll p r v := by
  cases u with
  | nil => exact absurd hu (by simp [BlockOK])
  | cons c u' =>
    rcases hu with ⟨hc, hrest⟩ | ⟨hc, hrest, hpre1, hpre2⟩
    · exact replaceAll_skip p r t hp (c :: u') v
        (by intro ch hch; rcases List.mem_cons.mp hch with rfl | hm; exact hc; exact hrest ch hm)
    · subst hc
      have hnp : p.isPrefixOf ('&' :: (u' ++ v)) = false := by
        cases h : p.isPrefixOf ('&' :: (u' ++ v)) with
        | false => rfl
        | true =>
          rcases (isPrefixOf_iff_exists _ _).mp h with ⟨w, hw⟩
          have hw' : ('&' :: u') ++ v = p ++ w := by simpa using hw
          rcases append_isPrefixOf_comm ('&' :: u') p v w hw' with h2 | h2
          · rw [hpre2] at h2; exact absurd h2 (by simp)
          · rw [hpre1] at h2; exact absurd h2 (by simp)
      rw [List.cons_append, replaceAll_cons p r (by simp [hp]) '&' (u' ++ v), hnp]
      simp only [Bool.false_eq_true, if_false]
      rw [replaceAll_skip p r t hp u' v hrest]
      rfl

theorem replaceAll_concatMap (p r : Str) (t : Str) (hp : p = '&' :: t)
    (f g : Char → Str)
    (hcase : ∀ c, (f c = p ∧ g c = r) ∨ (g c = f c ∧ BlockOK p (f c))) (s : Str) :
    replaceAll p r (concatMap f s) = concatMap g s := by
  induction s with
  | nil => simp [concatMap, replaceAll_nil]
  | cons c s' ih =>
    show replaceAll p r (f c ++ concatMap f s') = g c ++ concatMap g s'
    rcases hcase c with ⟨hf, hg⟩ | ⟨hg, hblock⟩
    · rw [hf, hg, replaceAll_head_match p r _ (by simp [hp]), ih]
    · rw [replaceAll_block p r (f c) _ t hp hblock, ih, hg]

/-- The decoding stage: characters already decoded in previous de-escape
passes appear plainly, the rest still as their entity. -/
def decodeStage (done : List Char) (c : Char) : Str :=
  if c ∈ done then [c] else encodeChar c

theorem encodeChar_not_special (c : Char)
    (h : c ∉ (['&', '|', '<', '>', '"', '\'', '[', ']'] : List Char)) :
    encodeChar c = [c] := by
  have h1 : c ≠ '&' := fun e => h (by rw [e]; decide)
  have h2 : c ≠ '|' := fun e => h (by rw [e]; decide)
  have h3 : c ≠ '<' := fun e => h (by rw [e]; decide)
  have h4 : c ≠ '>' := fun e => h (by rw [e]; decide)
  have h5 : c ≠ '"' := fun e => h (by rw [e]; decide)
  have h6 : c ≠ '\'' := fun e => h (by rw [e]; decide)
  have h7 : c ≠ '[' := fun e => h (by rw [e]; decide)
  have h8 : c ≠ ']' := fun e => h (by rw [e]; decide)
  simp [encodeChar, h1, h2, h3, h4, h5, h6, h7, h8]

instance instDecidableBlockOK (p u : Str) : Decidable (BlockOK p u) :=
  match u with
  | [] => isFalse fun h => h
  | c :: t =>
    inferInstanceAs (Decidable ((c ≠ '&' ∧ ∀ ch ∈ t, ch ≠ '&') ∨
      (c = '&' ∧ (∀ ch ∈ t, ch ≠ '&') ∧
        p.isPrefixOf (c :: t) = false ∧ (c :: t).isPrefixOf p = false)))

theorem decodeStage_hcase (done₁ done₂ : List Char) (tc : Char)
    (hsub : done₁ ⊆ (['&', '|', '<', '>', '"', '\'', '[', ']'] : List Char))
    (htc : tc ∈ (['&', '|', '<', '>', '"', '\'', '[', ']'] : List Char))
    (hd₂ : done₂ = tc :: done₁)
    (hconc : ∀ c ∈ (['&', '|', '<', '>', '"', '\'', '[', ']'] : List Char),
      (decodeStage done₁ c = encodeChar tc ∧ decodeStage done₂ c = [tc]) ∨
      (decodeStage done₂ c = decodeStage done₁ c ∧ BlockOK (encodeChar tc) (decodeStage done₁ c))) :
    ∀ c, (decodeStage done₁ c = encodeChar tc ∧ decodeStage done₂ c = [tc]) ∨
      (decodeStage done₂ c = decodeStage done₁ c ∧ BlockOK (encodeChar tc) (decodeStage done₁ c)) := by
  intro c
  by_cases hc : c ∈ (['&', '|', '<', '>', '"', '\'', '[', ']'] : List Char)
  · exact hconc c hc
  · right
    have hnd₁ : c ∉ done₁ := fun hm => hc (hsub hm)
    have hnd₂ : c ∉ done₂ := by
      rw [hd₂]
      intro hm
      rcases List.mem_cons.mp hm with rfl | hm'
      · exact hc htc
      · exact hnd₁ hm'
    have hplain : decodeStage done₁ c = [c] := by
      simp [decodeStage, hnd₁, encodeChar_not_special c hc]
    constructor
    · simp [decodeStage, hnd₁, hnd₂]
    · rw [hplain]
      exact Or.inl ⟨fun e => hc (by rw [e]; decide), by simp⟩

/-- De-escaping inverts escaping on every string. -/
theorem deescape_escape (s : Str) :
    deescape_special_chars (escape_special_chars s) = s := by
  rw [escape_eq_concatMap]
  unfold deescape_special_chars
  have hrev : MOSES_SPECIAL_CHARS.reverse =
      [(']', lit "&#93;"), ('[', lit "&#91;"), ('\'', lit "&apos;"), ('"', lit "&quot;"),
       ('>', lit "&gt;"), ('<', lit "&lt;"), ('|', lit "&#124;"), ('&', lit "&amp;")] := by
    decide
  rw [hrev]
  simp only [List.foldl_cons, List.foldl_nil]
  rw [show (lit "&#93;") = encodeChar ']' from by decide,
      show (lit "&#91;") = encodeChar '[' from by decide,
      show (lit "&apos;") = encodeChar '\'' from by decide,
      show (lit "&quot;") = encodeChar '"' from by decide,
      show (lit "&gt;") = encodeChar '>' from by decide,
      show (lit "&lt;") = encodeChar '<' from by decide,
      show (lit "&#124;") = encodeChar '|' from by decide,
      show (lit "&amp;") = encodeChar '&' from by decide]
  have e0 : concatMap encodeChar s = concatMap (decodeStage []) s :=
    concatMap_congr _ _ (fun x => by simp [decodeStage]) s
  rw [e0]
  rw [replaceAll_concatMap (encodeChar ']') [']'] (lit "#93;") (by decide)
      (decodeStage []) (decodeStage [']'])
      (decodeStage_hcase [] [']'] ']' (by decide) (by decide) rfl (by decide)) s]
  rw [replaceAll_concatMap (encodeChar '[') ['['] (lit "#91;") (by decide)
      (decodeStage [']']) (decodeStage ['[', ']'])
      (decodeStage_hcase [']'] ['[', ']'] '[' (by decide) (by decide) rfl (by decide)) s]
  rw [replaceAll_concatMap (encodeChar '\'') ['\''] (lit "apos;") (by decide)
      (decodeStage ['[', ']']) (decodeStage ['\'', '[', ']'])
      (decodeStage_hcase ['[', ']'] ['\'', '[', ']'] '\'' (by decide) (by decide) rfl
        (by decide)) s]
  rw [replaceAll_concatMap (encodeChar '"') ['"'] (lit "quot;") (by decide)
      (decodeStage ['\'', '[', ']']) (decodeStage ['"', '\'', '[', ']'])
      (decodeStage_hcase ['\'', '[', ']'] ['"', '\'', '[', ']'] '"' (by decide) (by decide) rfl
        (by decide)) s]
  rw [replaceAll_concatMap (encodeChar '>') ['>'] (lit "gt;") (by decide)
      (decodeStage ['"', '\'', '[', ']']) (decodeStage ['>', '"', '\'', '[', ']'])
      (decodeStage_hcase ['"', '\'', '[', ']'] ['>', '"', '\'', '[', ']'] '>' (by decide)
        (by decide) rfl (by decide)) s]
  rw [replaceAll_concatMap (encodeChar '<') ['<'] (lit "lt;") (by decide)
      (decodeStage ['>', '"', '\'', '[', ']']) (decodeStage ['<', '>', '"', '\'', '[', ']'])
      (decodeStage_hcase ['>', '"', '\'', '[', ']'] ['<', '>', '"', '\'', '[', ']'] '<'
        (by decide) (by decide) rfl (by decide)) s]
  rw [replaceAll_concatMap (encodeChar '|') ['|'] (lit "#124;") (by decide)
      (decodeStage ['<', '>', '"', '\'', '[', ']'])
      (decodeStage ['|', '<', '>', '"', '\'', '[', ']'])
      (decodeStage_hcase ['<', '>', '"', '\'', '[', ']'] ['|', '<', '>', '"', '\'', '[', ']'] '|'
        (by decide) (by decide) rfl (by decide)) s]
  rw [replaceAll_concatMap (encodeChar '&') ['&'] (lit "amp;") (by decide)
      (decodeStage ['|', '<', '>', '"', '\'', '[', ']'])
      (decodeStage ['&', '|', '<', '>', '"', '\'', '[', ']'])
      (decodeStage_hcase ['|', '<', '>', '"', '\'', '[', ']']
        ['&', '|', '<', '>', '"', '\'', '[', ']'] '&'
        (by decide) (by decide) rfl (by decide)) s]
  have efin : ∀ x, decodeStage ['&', '|', '<', '>', '"', '\'', '[', ']'] x = [x] := by
    intro x
    by_cases hx : x ∈ (['&', '|', '<', '>', '"', '\'', '[', ']'] : List Char)
    · simp [decodeStage, hx]
    · simp [decodeStage, hx, encodeChar_not_special x hx]
  rw [concatMap_congr _ _ efin s, concatMap_singleton]

/-! ## `mtrain/preprocessing/masking.py`, with constants from `constants.py` -/

/-- `MASKING_IDENTITY` from `constants.py`. -/
def MASKING_IDENTITY : Str := lit "identity"

/-- `MASKING_ALIGNMENT` from `constants.py`. -/
def MASKING_ALIGNMENT : Str := lit "alignment"

/-- The insertion-ordered key list of the `PROTECTED_PATTERNS` dictionary in
`constants.py`: `xml`, then `email`, then `url`. The regular expressions
themselves are external (`re`); they are modelled by the match oracle below. -/
def PROTECTED_PATTERNS_KEYS : List Str := [lit "xml", lit "email", lit "url"]

/-- Decimal digit characters of a natural number; fuel-driven worker. -/
def digitsF : Nat → Nat → Str
  | 0, _ => []
  | fuel + 1, n =>
    if n < 10 then [Char.ofNat (48 + n)]
    else digitsF fuel (n / 10) ++ [Char.ofNat (48 + n % 10)]

/-- Decimal representation of a natural number (Python's `"%d" % n`). -/
def natDigits (n : Nat) : Str := digitsF (n + 1) n

/-- The mask token built by `_Replacement.__call__`: `"__%s_%d__"` with the
running occurrence index when `with_id` is set, `"__%s__"` otherwise (the
`match.expand` is the identity here since the template has no references). -/
def mkPlaceholder (cat : Str) (withId : Bool) (n : Nat) : Str :=
  if withId then lit "__" ++ cat ++ lit "_" ++ natDigits n ++ lit "__"
  else lit "__" ++ cat ++ lit "__"

/-- Oracle decomposition of a subject string by one regular expression:
`first` is the text before the first match and `rest` pairs every matched
span, in left-to-right order, with the text following it up to the next
match (or the end). `recompose` reassembles the subject. -/
structure Decomp where
  first : Str
  rest : List (Str × Str)

/-- The subject string a decomposition describes. -/
def recompose (d : Decomp) : Str :=
  d.first ++ (d.rest.map (fun mg => mg.1 ++ mg.2)).flatten

/-- One `re.sub(regex, replacement, segment)` call with a `_Replacement`
callback: walk the matches in order, replace each with its mask token and
record `(replaced, matched)` in the occurrence list. -/
def reSubAux (cat : Str) (withId : Bool) (occ : List (Str × Str)) :
    List (Str × Str) → Str × List (Str × Str)
  | [] => ([], occ)
  | (m, g) :: rest =>
    let repl := mkPlaceholder cat withId occ.length
    let r := reSubAux cat withId (occ ++ [(repl, m)]) rest
    (repl ++ g ++ r.1, r.2)

/-- `re.sub` over a whole decomposition, starting with an empty occurrence
list (a fresh `_Replacement` per pattern). -/
def reSub (cat : Str) (withId : Bool) (d : Decomp) : Str × List (Str × Str) :=
  let r := reSubAux cat withId [] d.rest
  (d.first ++ r.1, r.2)

/-- The `for mask_token, regex in PROTECTED_PATTERNS.items()` loop of
`Masker.mask_segment`: each pattern is applied to the text produced by the
previous one, and the mapping is extended with the pass's occurrences. -/
def maskLoop (strategy : Str) (oracle : Str → Str → Decomp) :
    List Str → Str → List (Str × Str) → Str × List (Str × Str)
  | [], seg, mapping => (seg, mapping)
  | cat :: cats, seg, mapping =>
    let r := reSub cat (strategy == MASKING_IDENTITY) (oracle cat seg)
    maskLoop strategy oracle cats r.1 (mapping ++ r.2)

/-- `Masker.mask_segment`: replace protected matches by mask tokens for each
pattern in order (identity strategy numbers the tokens, any other strategy
shares one symbol per category), then escape special characters if `escape`
is set. The `oracle` stands for the `re` engine: for a pattern key and a
subject it yields the engine's match decomposition. -/
def mask_segment (strategy : Str) (escape : Bool) (oracle : Str → Str → Decomp)
    (cats : List Str) (segment : Str) : Str × List (Str × Str) :=
  let r := maskLoop strategy oracle cats segment []
  (if escape then escape_special_chars r.1 else r.1, r.2)

/-- `re.match("__%s_\d+__" % mask, token)`: anchored prefix match (leading
`__`, the category, `_`, one or more digits, `__`; `re.match` anchors only
the start, trailing text is allowed). -/
def reMatchIdMask (mask tok : Str) : Bool :=
  let pre := lit "__" ++ mask ++ lit "_"
  if pre.isPrefixOf tok then
    let r := tok.drop pre.length
    let ds := r.takeWhile Char.isDigit
    !ds.isEmpty && (lit "__").isPrefixOf (r.drop ds.length)
  else false

/-- `Masker._is_mask_token`: the Python `for mask in PROTECTED_PATTERNS.keys()`
loop returns during its first iteration in both branches, so only the first
key is ever consulted; an empty table falls through to `None` (falsy). -/
def isMaskToken (strategy : Str) (cats : List Str) (token : Str) : Bool :=
  match cats with
  | [] => false
  | mask :: _ =>
    if strategy == MASKING_IDENTITY then reMatchIdMask mask token
    else token == lit "__" ++ mask ++ lit "__"

/-- `Masker._mask_in_string`: some space-separated token is a mask token. -/
def maskInString (strategy : Str) (cats : List Str) (s : Str) : Bool :=
  (splitOnSpace s).any (isMaskToken strategy cats)

/-- `Masker._first_original`: original and index of the first mapping entry
whose mask token equals `mask`; `none` models Python's `None` fall-through. -/
def firstOriginal (mask : Str) : List (Str × Str) → Option (Str × Nat)
  | [] => none
  | (token, original) :: rest =>
    if token == mask then some (original, 0)
    else
      match firstOriginal mask rest with
      | some (orig, idx) => some (orig, idx + 1)
      | none => none

/-- Exceptions the unguarded accesses in `Masker.unmask_segment` can raise. -/
inductive UnmaskErr where
  /-- `alignment[source_index]` with `alignment is None` (a `TypeError`). -/
  | typeNone
  /-- the source index is absent from the alignment dict (a `KeyError`). -/
  | keyMissing
  /-- an aligned target index is out of range (an `IndexError`). -/
  | indexRange
  /-- `_first_original` returned `None` and was unpacked (a `TypeError`). -/
  | unpackNone
deriving DecidableEq

/-- Python dict lookup on an association list with unique keys. -/
def lookupNat (al : List (Nat × List Nat)) (k : Nat) : Option (List Nat) :=
  match al.find? (fun kv => kv.1 == k) with
  | some kv => some kv.2
  | none => none

/-- The inner `for candidate_index in alignment[source_index]` loop of
`Masker.unmask_segment`: try the aligned target indices in order; at the
first aligned mask token substitute the first matching original, delete that
mapping entry and break. `ok none` models `found_match = False`. -/
def tryCandidates (strategy : Str) (cats : List Str) (sourceToken : Str) :
    List Nat → List Str → List (Str × Str) →
    Except UnmaskErr (Option (List Str × List (Str × Str)))
  | [], _, _ => .ok none
  | cand :: rest, targetTokens, mapping =>
    if h : cand < targetTokens.length then
      if isMaskToken strategy cats (targetTokens.get ⟨cand, h⟩) then
        match firstOriginal sourceToken mapping with
        | none => .error .unpackNone
        | some (orig, idx) =>
          .ok (some (targetTokens.set cand orig, mapping.eraseIdx idx))
      else tryCandidates strategy cats sourceToken rest targetTokens mapping
    else .error .indexRange

/-- The `for source_index, source_token in enumerate(source_tokens)` loop of
the duplicate-mask alignment path of `Masker.unmask_segment`. -/
def unmaskAlignLoop (strategy : Str) (cats : List Str)
    (alignment : Option (List (Nat × List Nat))) :
    Nat → List Str → List Str → List (Str × Str) →
    Except UnmaskErr (List Str × List (Str × Str))
  | _, [], targetTokens, mapping => .ok (targetTokens, mapping)
  | i, srcTok :: srcRest, targetTokens, mapping =>
    if isMaskToken strategy cats srcTok then
      match alignment with
      | none => .error .typeNone
      | some al =>
        match lookupNat al i with
        | none => .error .keyMissing
        | some cands =>
          match tryCandidates strategy cats srcTok cands targetTokens mapping with
          | .error e => .error e
          | .ok none =>
            unmaskAlignLoop strategy cats alignment (i + 1) srcRest targetTokens mapping
          | .ok (some (t', m')) =>
            unmaskAlignLoop strategy cats alignment (i + 1) srcRest t' m'
    else unmaskAlignLoop strategy cats alignment (i + 1) srcRest targetTokens mapping

/-- `Masker.unmask_segment`. The alignment path subscripts `alignment`, the
target token list and the result of `_first_original` without guards, so
those accesses can raise; they are modelled as errors. The trailing
`_mask_in_string` check only logs and does not affect the result. -/
def unmask_segment (strategy : Str) (cats : List Str)
    (sourceSegment targetSegment : Str) (mapping : List (Str × Str))
    (alignment : Option (List (Nat × List Nat))) : Except UnmaskErr Str :=
  if mapping.isEmpty then .ok targetSegment
  else if strategy == MASKING_ALIGNMENT then
    let masks := mapping.map Prod.fst
    if masks.dedup.length == masks.length then
      .ok (mapping.foldl (fun t pr => replaceFirst pr.1 pr.2 t) targetSegment)
    else
      match unmaskAlignLoop strategy cats alignment 0 (splitOnSpace sourceSegment)
          (splitOnSpace targetSegment) mapping with
      | .error e => .error e
      | .ok (t', _) => .ok (joinSpace t')
  else if strategy == MASKING_IDENTITY then
    .ok (mapping.foldl (fun t pr => replaceFirst pr.1 pr.2 t) targetSegment)
  else .ok targetSegment

/-! ## Supporting lemmas about placeholders and escaping -/

theorem concatMap_eq_self (f : Char → Str) (s : Str) (h : ∀ c ∈ s, f c = [c]) :
    concatMap f s = s := by
  induction s with
  | nil => rfl
  | cons c cs ih =>
    simp only [concatMap, h c (by simp)]
    rw [ih (fun d hd => h d (by simp [hd]))]
    rfl

theorem escape_eq_self (s : Str) (h : ∀ c ∈ s, encodeChar c = [c]) :
    escape_special_chars s = s := by
  rw [escape_eq_concatMap]
  exact concatMap_eq_self _ _ h

theorem digitsF_subset (fuel : Nat) :
    ∀ n c, c ∈ digitsF fuel n → c ∈ lit "0123456789" := by
  induction fuel with
  | zero => intro n c h; simp [digitsF] at h
  | succ f ih =>
    intro n c h
    simp only [digitsF] at h
    by_cases hn : n < 10
    · rw [if_pos hn] at h
      simp only [List.mem_singleton] at h
      subst h
      interval_cases n <;> decide
    · rw [if_neg hn] at h
      rcases List.mem_append.mp h with h1 | h2
      · exact ih _ c h1
      · simp only [List.mem_singleton] at h2
        subst h2
        have hm : n % 10 < 10 := Nat.mod_lt _ (by omega)
        set m := n % 10 with hmdef
        clear_value m
        interval_cases m <;> decide

theorem encodeChar_of_digit (c : Char) (h : c ∈ lit "0123456789") :
    encodeChar c = [c] := by
  have h' : c ∈ (['0', '1', '2', '3', '4', '5', '6', '7', '8', '9'] : List Char) := h
  fin_cases h' <;> decide

theorem escape_mkPlaceholder (cat : Str) (hcat : ∀ c ∈ cat, encodeChar c = [c])
    (wi : Bool) (n : Nat) :
    escape_special_chars (mkPlaceholder cat wi n) = mkPlaceholder cat wi n := by
  apply escape_eq_self
  intro c hc
  have hund : ∀ d : Char, d ∈ (['_', '_'] : List Char) → encodeChar d = [d] := by decide
  have hund1 : ∀ d : Char, d ∈ (['_'] : List Char) → encodeChar d = [d] := by decide
  cases wi with
  | true =>
    simp only [mkPlaceholder, if_true, List.mem_append] at hc
    rcases hc with ((((h | h) | h) | h) | h)
    · exact hund c h
    · exact hcat c h
    · exact hund1 c h
    · exact encodeChar_of_digit c (digitsF_subset _ _ c h)
    · exact hund c h
  | false =>
    simp only [mkPlaceholder, if_false, List.mem_append, Bool.false_eq_true] at hc
    rcases hc with ((h | h) | h)
    · exact hund c h
    · exact hcat c h
    · exact hund c h

/-! ## Claim C9 -/

/-- C9: for every string, escaping the Moses-reserved characters with the
fixed ampersand-first table and then de-escaping returns the original
string; placeholder tokens (`__<category>__` and `__<category>_<n>__` for
the configured categories) are left unchanged by escaping. -/
theorem C9_escape_roundtrip :
    (∀ s : Str, deescape_special_chars (escape_special_chars s) = s) ∧
    (∀ cat, cat ∈ PROTECTED_PATTERNS_KEYS → ∀ (wi : Bool) (n : Nat),
      escape_special_chars (mkPlaceholder cat wi n) = mkPlaceholder cat wi n) := by
  constructor
  · exact deescape_escape
  · intro cat hcat wi n
    apply escape_mkPlaceholder cat ?_ wi n
    simp only [PROTECTED_PATTERNS_KEYS, List.mem_cons, List.not_mem_nil, or_false] at hcat
    rcases hcat with rfl | rfl | rfl
    · decide
    · decide
    · decide

/-- Witness for C9 at a concrete string and a concrete placeholder. -/
theorem C9_escape_roundtrip_witness :
    deescape_special_chars (escape_special_chars (lit "ships & [sky]")) = lit "ships & [sky]" ∧
    escape_special_chars (mkPlaceholder (lit "xml") true 0) = mkPlaceholder (lit "xml") true 0 :=
  ⟨C9_escape_roundtrip.1 (lit "ships & [sky]"),
   C9_escape_roundtrip.2 (lit "xml") (by decide) true 0⟩

/-! ## Claim C10 -/

/-- C10: `_is_mask_token` returns during the first loop iteration, so with
any configured table its result coincides with the table restricted to its
first category; with the real three-category table, placeholders of the
later categories `email` and `url` are never recognised (under either
strategy), and `_mask_in_string` inherits the same restriction. -/
theorem C10_first_category_only :
    (∀ (strategy token cat : Str) (rest : List Str),
      isMaskToken strategy (cat :: rest) token = isMaskToken strategy [cat] token) ∧
    (∀ (strategy s cat : Str) (rest : List Str),
      maskInString strategy (cat :: rest) s = maskInString strategy [cat] s) ∧
    (∀ strategy : Str,
      isMaskToken strategy PROTECTED_PATTERNS_KEYS (lit "__email_0__") = false ∧
      isMaskToken strategy PROTECTED_PATTERNS_KEYS (lit "__url__") = false) := by
  refine ⟨fun _ _ _ _ => rfl, ?_, ?_⟩
  · intro strategy s cat rest
    have hfun : isMaskToken strategy (cat :: rest) = isMaskToken strategy [cat] :=
      funext fun _ => rfl
    rw [maskInString, hfun, maskInString]
  · intro strategy
    constructor
    · show isMaskToken strategy (lit "xml" :: _) _ = false
      simp only [isMaskToken]
      cases h : strategy == MASKING_IDENTITY <;> simp [h] <;> decide
    · show isMaskToken strategy (lit "xml" :: _) _ = false
      simp only [isMaskToken]
      cases h : strategy == MASKING_IDENTITY <;> simp [h] <;> decide

/-! ## Occurrence structure of one `re.sub` pass (towards C5) -/

/-- Identity-strategy placeholder recognition by category: the token starts
with `__<category>_`. -/
def isIdPlaceholder (cat : Str) (tok : Str) : Bool :=
  (lit "__" ++ cat ++ lit "_").isPrefixOf tok

/-- The occurrence list recorded by one pass: entry `i` pairs the `i`-th
placeholder with the `i`-th matched text, in match order. -/
def occOf (cat : Str) (wi : Bool) (d : Decomp) : List (Str × Str) :=
  ((d.rest.map Prod.fst).enumFrom 0).map (fun q => (mkPlaceholder cat wi q.1, q.2))

theorem reSubAux_spec (cat : Str) (wi : Bool) :
    ∀ (parts : List (Str × Str)) (occ : List (Str × Str)),
      reSubAux cat wi occ parts =
        (((parts.enumFrom occ.length).map
            (fun q => mkPlaceholder cat wi q.1 ++ q.2.2)).flatten,
         occ ++ ((parts.map Prod.fst).enumFrom occ.length).map
            (fun q => (mkPlaceholder cat wi q.1, q.2))) := by
  intro parts
  induction parts with
  | nil => intro occ; simp [reSubAux]
  | cons mg rest ih =>
    intro occ
    obtain ⟨m, g⟩ := mg
    simp only [reSubAux, ih (occ ++ [(mkPlaceholder cat wi occ.length, m)]),
      List.length_append, List.length_singleton, List.map_cons, List.enumFrom_cons,
      List.flatten_cons, List.append_assoc, List.singleton_append, List.map_map]

theorem reSub_spec (cat : Str) (wi : Bool) (d : Decomp) :
    reSub cat wi d =
      (d.first ++ ((d.rest.enumFrom 0).map
          (fun q => mkPlaceholder cat wi q.1 ++ q.2.2)).flatten,
       occOf cat wi d) := by
  simp [reSub, occOf, reSubAux_spec cat wi d.rest []]

/-! ### Category recognition of placeholders -/

theorem isPrefixOf_false_at3 (x1 x2 x3 y3 : Char) (pr sr : Str) (h : ¬ x3 = y3) :
    (x1 :: x2 :: x3 :: pr).isPrefixOf (x1 :: x2 :: y3 :: sr) = false := by
  simp only [List.isPrefixOf, Bool.and_eq_false_iff]
  right
  right
  left
  simpa using h

theorem isIdPlaceholder_self (cat : Str) (n : Nat) :
    isIdPlaceholder cat (mkPlaceholder cat true n) = true := by
  show (lit "__" ++ cat ++ lit "_").isPrefixOf
    (lit "__" ++ cat ++ lit "_" ++ natDigits n ++ lit "__") = true
  have h : lit "__" ++ cat ++ lit "_" ++ natDigits n ++ lit "__"
      = (lit "__" ++ cat ++ lit "_") ++ (natDigits n ++ lit "__") := by
    simp [List.append_assoc]
  rw [h, isPrefixOf_append_self]

theorem isIdPh_xml_email (n : Nat) :
    isIdPlaceholder (lit "xml") (mkPlaceholder (lit "email") true n) = false := by
  show ('_' :: '_' :: 'x' :: lit "ml_").isPrefixOf
    ('_' :: '_' :: 'e' :: ('m' :: 'a' :: 'i' :: 'l' :: '_' :: (natDigits n ++ lit "__"))) = false
  exact isPrefixOf_false_at3 _ _ _ _ _ _ (by decide)

theorem isIdPh_xml_url (n : Nat) :
    isIdPlaceholder (lit "xml") (mkPlaceholder (lit "url") true n) = false := by
  show ('_' :: '_' :: 'x' :: lit "ml_").isPrefixOf
    ('_' :: '_' :: 'u' :: ('r' :: 'l' :: '_' :: (natDigits n ++ lit "__"))) = false
  exact isPrefixOf_false_at3 _ _ _ _ _ _ (by decide)

theorem isIdPh_email_xml (n : Nat) :
    isIdPlaceholder (lit "email") (mkPlaceholder (lit "xml") true n) = false := by
  show ('_' :: '_' :: 'e' :: lit "mail_").isPrefixOf
    ('_' :: '_' :: 'x' :: ('m' :: 'l' :: '_' :: (natDigits n ++ lit "__"))) = false
  exact isPrefixOf_false_at3 _ _ _ _ _ _ (by decide)

theorem isIdPh_email_url (n : Nat) :
    isIdPlaceholder (lit "email") (mkPlaceholder (lit "url") true n) = false := by
  show ('_' :: '_' :: 'e' :: lit "mail_").isPrefixOf
    ('_' :: '_' :: 'u' :: ('r' :: 'l' :: '_' :: (natDigits n ++ lit "__"))) = false
  exact isPrefixOf_false_at3 _ _ _ _ _ _ (by decide)

theorem isIdPh_url_xml (n : Nat) :
    isIdPlaceholder (lit "url") (mkPlaceholder (lit "xml") true n) = false := by
  show ('_' :: '_' :: 'u' :: lit "rl_").isPrefixOf
    ('_' :: '_' :: 'x' :: ('m' :: 'l' :: '_' :: (natDigits n ++ lit "__"))) = false
  exact isPrefixOf_false_at3 _ _ _ _ _ _ (by decide)

theorem isIdPh_url_email (n : Nat) :
    isIdPlaceholder (lit "url") (mkPlaceholder (lit "email") true n) = false := by
  show ('_' :: '_' :: 'u' :: lit "rl_").isPrefixOf
    ('_' :: '_' :: 'e' :: ('m' :: 'a' :: 'i' :: 'l' :: '_' :: (natDigits n ++ lit "__"))) = false
  exact isPrefixOf_false_at3 _ _ _ _ _ _ (by decide)

theorem filter_occOf_self (cat : Str) (d : Decomp)
    (h : ∀ n, isIdPlaceholder cat (mkPlaceholder cat true n) = true) :
    (occOf cat true d).filter (fun e => isIdPlaceholder cat e.1) = occOf cat true d := by
  rw [List.filter_eq_self]
  intro e he
  simp only [occOf, List.mem_map] at he
  obtain ⟨q, _, rfl⟩ := he
  exact h q.1

theorem filter_occOf_other (cat cat' : Str) (d : Decomp)
    (h : ∀ n, isIdPlaceholder cat (mkPlaceholder cat' true n) = false) :
    (occOf cat' true d).filter (fun e => isIdPlaceholder cat e.1) = [] := by
  rw [List.filter_eq_nil]
  intro e he
  simp only [occOf, List.mem_map] at he
  obtain ⟨q, _, rfl⟩ := he
  simp [h q.1]

/-! ### The three identity-strategy masking stages -/

/-- Decomposition consumed by the `xml` pass of `mask_segment`. -/
def stage1Decomp (oracle : Str → Str → Decomp) (segment : Str) : Decomp :=
  oracle (lit "xml") segment

/-- Text produced by the `xml` pass (identity strategy). -/
def stage1Out (oracle : Str → Str → Decomp) (segment : Str) : Str :=
  (reSub (lit "xml") true (stage1Decomp oracle segment)).1

/-- Decomposition consumed by the `email` pass. -/
def stage2Decomp (oracle : Str → Str → Decomp) (segment : Str) : Decomp :=
  oracle (lit "email") (stage1Out oracle segment)

/-- Text produced by the `email` pass (identity strategy). -/
def stage2Out (oracle : Str → Str → Decomp) (segment : Str) : Str :=
  (reSub (lit "email") true (stage2Decomp oracle segment)).1

/-- Decomposition consumed by the `url` pass. -/
def stage3Decomp (oracle : Str → Str → Decomp) (segment : Str) : Decomp :=
  oracle (lit "url") (stage2Out oracle segment)

theorem mask_segment_identity_mapping (escape : Bool) (oracle : Str → Str → Decomp)
    (segment : Str) :
    (mask_segment MASKING_IDENTITY escape oracle PROTECTED_PATTERNS_KEYS segment).2
      = occOf (lit "xml") true (stage1Decomp oracle segment)
        ++ occOf (lit "email") true (stage2Decomp oracle segment)
        ++ occOf (lit "url") true (stage3Decomp oracle segment) := by
  have hb : (MASKING_IDENTITY == MASKING_IDENTITY) = true := by decide
  simp only [mask_segment, maskLoop, PROTECTED_PATTERNS_KEYS, hb]
  simp only [stage1Decomp, stage2Decomp, stage3Decomp, stage1Out, stage2Out,
    stage1Decomp, reSub_spec, List.nil_append, List.append_assoc]

/-! ## Claim C5 -/

/-- C5 (amended): under the identity strategy, for a category `c` whose pass
sees `N` matches, the mapping returned by `mask_segment` contains exactly
the `N` entries `(__c_i__, matched_i)` for `i < N`, in left-to-right match
order (and no other entry is recognised as belonging to `c`); the text
produced by that category's own replacement pass interleaves the
placeholders `__c_0__ … __c_(N-1)__` left-to-right at the match positions.
A later category's match may consume an earlier placeholder, so the final
masked segment need not retain them (see the counterexample). -/
theorem C5_occurrence_counting (escape : Bool) (oracle : Str → Str → Decomp)
    (segment : Str) :
    ((mask_segment MASKING_IDENTITY escape oracle PROTECTED_PATTERNS_KEYS segment).2.filter
        (fun e => isIdPlaceholder (lit "xml") e.1)
      = occOf (lit "xml") true (stage1Decomp oracle segment)
    ∧ (mask_segment MASKING_IDENTITY escape oracle PROTECTED_PATTERNS_KEYS segment).2.filter
        (fun e => isIdPlaceholder (lit "email") e.1)
      = occOf (lit "email") true (stage2Decomp oracle segment)
    ∧ (mask_segment MASKING_IDENTITY escape oracle PROTECTED_PATTERNS_KEYS segment).2.filter
        (fun e => isIdPlaceholder (lit "url") e.1)
      = occOf (lit "url") true (stage3Decomp oracle segment))
    ∧ (∀ (cat : Str) (wi : Bool) (d : Decomp),
        (occOf cat wi d).length = d.rest.length
        ∧ reSub cat wi d
          = (d.first ++ ((d.rest.enumFrom 0).map
              (fun q => mkPlaceholder cat wi q.1 ++ q.2.2)).flatten,
             occOf cat wi d)) := by
  constructor
  · rw [mask_segment_identity_mapping]
    refine ⟨?_, ?_, ?_⟩ <;> rw [List.filter_append, List.filter_append]
    · rw [filter_occOf_self _ _ (isIdPlaceholder_self _),
        filter_occOf_other _ _ _ isIdPh_xml_email,
        filter_occOf_other _ _ _ isIdPh_xml_url]
      simp
    · rw [filter_occOf_self _ _ (isIdPlaceholder_self _),
        filter_occOf_other _ _ _ isIdPh_email_xml,
        filter_occOf_other _ _ _ isIdPh_email_url]
      simp
    · rw [filter_occOf_self _ _ (isIdPlaceholder_self _),
        filter_occOf_other _ _ _ isIdPh_url_xml,
        filter_occOf_other _ _ _ isIdPh_url_email]
      simp
  · intro cat wi d
    exact ⟨by simp [occOf], reSub_spec cat wi d⟩

/-- Oracle for the C5 counterexample: on `"<b>@foo.com x"` the `xml` pattern
matches `<b>`, and on the resulting `"__xml_0__@foo.com x"` the `email`
pattern (whose `\w` class includes underscores) matches
`__xml_0__@foo.com`, consuming the freshly inserted `xml` placeholder. -/
def c5Oracle : Str → Str → Decomp := fun cat s =>
  if cat = lit "xml" ∧ s = lit "<b>@foo.com x" then
    ⟨[], [(lit "<b>", lit "@foo.com x")]⟩
  else if cat = lit "email" ∧ s = lit "__xml_0__@foo.com x" then
    ⟨[], [(lit "__xml_0__@foo.com", lit " x")]⟩
  else ⟨s, []⟩

/-- C5 counterexample: masking `"<b>@foo.com x"` under the identity strategy
records exactly one `xml` entry `(__xml_0__, <b>)` in the mapping, yet the
masked segment does not contain the placeholder `__xml_0__` anywhere — the
later `email` pass swallowed it — refuting the claim that the masked output
carries the placeholders `__c_0__ … __c_(N-1)__` of every category. -/
theorem C5_counterexample :
    (mask_segment MASKING_IDENTITY true c5Oracle PROTECTED_PATTERNS_KEYS
        (lit "<b>@foo.com x")).2.filter (fun e => isIdPlaceholder (lit "xml") e.1)
      = [(lit "__xml_0__", lit "<b>")]
    ∧ ¬ ∃ a b : Str,
        (mask_segment MASKING_IDENTITY true c5Oracle PROTECTED_PATTERNS_KEYS
          (lit "<b>@foo.com x")).1 = a ++ lit "__xml_0__" ++ b := by
  constructor
  · decide
  · rintro ⟨a, b, hab⟩
    have h1 : containsSub (lit "__xml_0__")
        (mask_segment MASKING_IDENTITY true c5Oracle PROTECTED_PATTERNS_KEYS
          (lit "<b>@foo.com x")).1 = true :=
      (containsSub_iff _ _).mpr ⟨a, b, hab⟩
    have h2 : containsSub (lit "__xml_0__")
        (mask_segment MASKING_IDENTITY true c5Oracle PROTECTED_PATTERNS_KEYS
          (lit "<b>@foo.com x")).1 = false := by decide
    rw [h2] at h1
    exact Bool.false_ne_true h1

/-! ## Piece decompositions of a masked segment (towards C1)

A masked segment is a concatenation of pieces: plain text stretches
(`Sum.inl`) and mask-token pieces (`Sum.inr (placeholder, original)`).
Unmasking replaces placeholders by originals; the lemmas below show that
the `replaceFirst` fold of the identity unmasking path restores the
original text whenever each placeholder's first occurrence in the partially
restored segment is the designated one. -/

/-- A piece of a masked segment: plain text, or a `(placeholder, original)`
mask piece. -/
abbrev Piece := Sum Str (Str × Str)

/-- Text of one piece: placeholders in `processed` show their original. -/
def renderPiece (processed : List Str) : Piece → Str
  | .inl s => s
  | .inr pr => if pr.1 ∈ processed then pr.2 else pr.1

/-- Text of a piece list under a set of already-processed placeholders. -/
def renderPieces (processed : List Str) (pieces : List Piece) : Str :=
  (pieces.map (renderPiece processed)).flatten

/-- The fully restored text: every mask piece shows its original. -/
def piecesOriginal : List Piece → Str
  | [] => []
  | .inl s :: rest => s ++ piecesOriginal rest
  | .inr pr :: rest => pr.2 ++ piecesOriginal rest

/-- The mask pieces in order — the mapping a masking run would record. -/
def piecesEntries : List Piece → List (Str × Str)
  | [] => []
  | .inl _ :: rest => piecesEntries rest
  | .inr pr :: rest => pr :: piecesEntries rest

/-- Split a piece list at the first mask piece carrying placeholder `p`. -/
def entrySplit (p : Str) : List Piece → Option (List Piece × Str × List Piece)
  | [] => none
  | .inl s :: rest =>
    match entrySplit p rest with
    | some (b, o, a) => some (.inl s :: b, o, a)
    | none => none
  | .inr pr :: rest =>
    if pr.1 = p then some ([], pr.2, rest)
    else
      match entrySplit p rest with
      | some (b, o, a) => some (.inr pr :: b, o, a)
      | none => none

/-- Number of mask pieces carrying placeholder `p`. -/
def entryCount (p : Str) : List Piece → Nat
  | [] => 0
  | .inl _ :: rest => entryCount p rest
  | .inr pr :: rest => (if pr.1 = p then 1 else 0) + entryCount p rest

/-- No occurrence of `p` in `A ++ p ++ S` starts strictly before `A` ends. -/
def noEarlyOcc (p A S : Str) : Prop :=
  ∀ a b : Str, A ++ p ++ S = a ++ p ++ b → A.length ≤ a.length

/-- Decidable check for `noEarlyOcc`. -/
def noEarlyOccB (p A S : Str) : Bool :=
  decide (∀ k < A.length, ¬ p.isPrefixOf ((A ++ p ++ S).drop k) = true)

theorem noEarlyOcc_of_B (p A S : Str) (h : noEarlyOccB p A S = true) :
    noEarlyOcc p A S := by
  intro a b heq
  by_contra hlt
  push_neg at hlt
  have hdec := of_decide_eq_true h
  apply hdec a.length hlt
  rw [heq]
  have hassoc : a ++ p ++ b = a ++ (p ++ b) := by simp [List.append_assoc]
  rw [hassoc, List.drop_left]
  exact isPrefixOf_append_self p b

theorem replaceFirst_noEarly (p r S : Str) (hp : p ≠ []) :
    ∀ A, noEarlyOcc p A S → replaceFirst p r (A ++ p ++ S) = A ++ r ++ S := by
  intro A
  induction A with
  | nil =>
    intro _
    cases p with
    | nil => exact absurd rfl hp
    | cons c p' =>
      show replaceFirst (c :: p') r (c :: (p' ++ S)) = [] ++ r ++ S
      simp only [replaceFirst]
      have hpre : (c :: p').isPrefixOf (c :: (p' ++ S)) = true :=
        isPrefixOf_append_self (c :: p') S
      rw [hpre]
      simp only [if_true]
      have hdrop : (c :: (p' ++ S)).drop (c :: p').length = S := by
        show ((c :: p') ++ S).drop (c :: p').length = S
        exact List.drop_left _ _
      rw [hdrop]
      simp
  | cons c A' ih =>
    intro h
    have hstr : (c :: A') ++ p ++ S = c :: (A' ++ p ++ S) := by simp
    rw [hstr]
    simp only [replaceFirst]
    have hpre : p.isPrefixOf (c :: (A' ++ p ++ S)) = false := by
      cases hq : p.isPrefixOf (c :: (A' ++ p ++ S)) with
      | false => rfl
      | true =>
        rcases (isPrefixOf_iff_exists _ _).mp hq with ⟨w, hw⟩
        have hcontr := h [] w (by simp only [List.nil_append]; rw [hstr]; exact hw)
        simp at hcontr
    rw [hpre]
    simp only [Bool.false_eq_true, if_false]
    have htail : noEarlyOcc p A' S := by
      intro a b hab
      have := h (c :: a) b (by rw [hstr, hab]; simp)
      simpa using this
    rw [ih htail]
    simp

theorem entrySplit_eq (p : Str) :
    ∀ pieces before orig after,
      entrySplit p pieces = some (before, orig, after) →
      pieces = before ++ Sum.inr (p, orig) :: after ∧ entryCount p before = 0 := by
  intro pieces
  induction pieces with
  | nil => intro b o a h; simp [entrySplit] at h
  | cons x rest ih =>
    intro b o a h
    cases x with
    | inl s =>
      simp only [entrySplit] at h
      cases hr : entrySplit p rest with
      | none => rw [hr] at h; simp at h
      | some boa =>
        obtain ⟨b', o', a'⟩ := boa
        rw [hr] at h
        simp only [Option.some_inj, Prod.mk.injEq] at h
        obtain ⟨rfl, rfl, rfl⟩ := h
        obtain ⟨h1, h2⟩ := ih b' o' a' hr
        exact ⟨by rw [h1]; simp, by simpa [entryCount] using h2⟩
    | inr pr =>
      simp only [entrySplit] at h
      by_cases hpr : pr.1 = p
      · rw [if_pos hpr] at h
        simp only [Option.some_inj, Prod.mk.injEq] at h
        obtain ⟨rfl, rfl, rfl⟩ := h
        constructor
        · have : pr = (p, pr.2) := by
            cases pr; simp at hpr ⊢; exact hpr
          rw [List.nil_append]
          rw [← this]
        · rfl
      · rw [if_neg hpr] at h
        cases hr : entrySplit p rest with
        | none => rw [hr] at h; simp at h
        | some boa =>
          obtain ⟨b', o', a'⟩ := boa
          rw [hr] at h
          simp only [Option.some_inj, Prod.mk.injEq] at h
          obtain ⟨rfl, rfl, rfl⟩ := h
          obtain ⟨h1, h2⟩ := ih b' o' a' hr
          refine ⟨by rw [h1]; simp, ?_⟩
          simp [entryCount, hpr, h2]

theorem entryCount_zero_not_mem (p : Str) :
    ∀ l, entryCount p l = 0 → ∀ pr : Str × Str, Sum.inr pr ∈ l → pr.1 ≠ p := by
  intro l
  induction l with
  | nil => intro _ pr h; simp at h
  | cons x rest ih =>
    intro h pr hm
    cases x with
    | inl s =>
      rcases List.mem_cons.mp hm with heq | hm'
      · simp at heq
      · exact ih (by simpa [entryCount] using h) pr hm'
    | inr pr' =>
      simp only [entryCount] at h
      by_cases hpr : pr'.1 = p
      · rw [if_pos hpr] at h; omega
      · rw [if_neg hpr] at h
        rcases List.mem_cons.mp hm with heq | hm'
        · injection heq with heq'
          subst heq'
          exact hpr
        · exact ih (by simpa using h) pr hm'

theorem renderPieces_append (pr : List Str) (a b : List Piece) :
    renderPieces pr (a ++ b) = renderPieces pr a ++ renderPieces pr b := by
  simp [renderPieces]

theorem renderPieces_cons (pr : List Str) (x : Piece) (a : List Piece) :
    renderPieces pr (x :: a) = renderPiece pr x ++ renderPieces pr a := by
  simp [renderPieces]

theorem renderPieces_congr (pr1 pr2 : List Str) :
    ∀ pieces : List Piece, (∀ x ∈ pieces, renderPiece pr1 x = renderPiece pr2 x) →
      renderPieces pr1 pieces = renderPieces pr2 pieces := by
  intro pieces
  induction pieces with
  | nil => intro _; rfl
  | cons x rest ih =>
    intro h
    rw [renderPieces_cons, renderPieces_cons, h x (by simp),
      ih (fun y hy => h y (by simp [hy]))]

theorem renderPiece_snoc_ne (processed : List Str) (p : Str) (x : Piece)
    (h : ∀ pr : Str × Str, x = Sum.inr pr → pr.1 ≠ p) :
    renderPiece (processed ++ [p]) x = renderPiece processed x := by
  cases x with
  | inl s => rfl
  | inr pr =>
    simp only [renderPiece]
    by_cases hm : pr.1 ∈ processed
    · simp [hm]
    · have : pr.1 ∉ processed ++ [p] := by
        simp [hm, h pr rfl]
      simp [hm, this]

theorem renderPieces_done (processed : List Str) :
    ∀ pieces : List Piece, (∀ pr : Str × Str, Sum.inr pr ∈ pieces → pr.1 ∈ processed) →
      renderPieces processed pieces = piecesOriginal pieces := by
  intro pieces
  induction pieces with
  | nil => intro _; rfl
  | cons x rest ih =>
    intro h
    cases x with
    | inl s =>
      rw [renderPieces_cons]
      show s ++ _ = s ++ _
      rw [ih (fun pr hm => h pr (by simp [hm]))]
    | inr pr =>
      rw [renderPieces_cons]
      have : renderPiece processed (Sum.inr pr) = pr.2 := by
        simp [renderPiece, h pr (by simp)]
      rw [this]
      show pr.2 ++ _ = pr.2 ++ _
      rw [ih (fun q hm => h q (by simp [hm]))]

theorem entry_mem_entries :
    ∀ (pieces : List Piece) (pr : Str × Str), Sum.inr pr ∈ pieces →
      pr ∈ piecesEntries pieces := by
  intro pieces
  induction pieces with
  | nil => intro pr h; simp at h
  | cons x rest ih =>
    intro pr h
    cases x with
    | inl s =>
      rcases List.mem_cons.mp h with heq | hm
      · simp at heq
      · simpa [piecesEntries] using ih pr hm
    | inr q =>
      rcases List.mem_cons.mp h with heq | hm
      · injection heq with heq'
        subst heq'
        simp [piecesEntries]
      · simp [piecesEntries, ih pr hm]

/-- One mapping entry is cleanly restorable: the piece list holds exactly
one mask piece with this placeholder, its original is the mapping entry's,
and no occurrence of the placeholder starts before the designated one in
the current partially restored text. -/
def entryOK (p o : Str) (processed : List Str) (pieces : List Piece) : Bool :=
  match entrySplit p pieces with
  | none => false
  | some (before, orig, after) =>
    orig == o && entryCount p after == 0 &&
      noEarlyOccB p (renderPieces processed before) (renderPieces processed after)

/-- The whole mapping is cleanly restorable, entry by entry, against the
text in which the previously processed placeholders already show their
originals. -/
def CleanUnmask (pieces : List Piece) : List Str → List (Str × Str) → Prop
  | _, [] => True
  | processed, (p, o) :: rest =>
    p ≠ [] ∧ p ∉ processed ∧ entryOK p o processed pieces = true ∧
      CleanUnmask pieces (processed ++ [p]) rest

/-- Decidability worker for `CleanUnmask`. -/
def cleanUnmaskDec (pieces : List Piece) :
    ∀ processed mapping, Decidable (CleanUnmask pieces processed mapping)
  | _, [] => .isTrue trivial
  | processed, (p, o) :: rest =>
    haveI := cleanUnmaskDec pieces (processed ++ [p]) rest
    inferInstanceAs (Decidable (_ ∧ _ ∧ _ ∧ _))

instance instDecCleanUnmask (pieces : List Piece) (processed : List Str)
    (mapping : List (Str × Str)) : Decidable (CleanUnmask pieces processed mapping) :=
  cleanUnmaskDec pieces processed mapping

/-- The `replaceFirst` fold of the identity unmasking path restores, entry
by entry, the originals of a cleanly restorable piece decomposition. -/
theorem unmaskFold_restores (pieces : List Piece) :
    ∀ (mapping : List (Str × Str)) (processed : List Str),
      CleanUnmask pieces processed mapping →
      List.foldl (fun t pr => replaceFirst pr.1 pr.2 t)
          (renderPieces processed pieces) mapping
        = renderPieces (processed ++ mapping.map Prod.fst) pieces := by
  intro mapping
  induction mapping with
  | nil => intro processed _; simp
  | cons e rest ih =>
    intro processed hclean
    obtain ⟨p, o⟩ := e
    obtain ⟨hpne, hpnp, hok, hrest⟩ := hclean
    unfold entryOK at hok
    cases hsplit : entrySplit p pieces with
    | none => rw [hsplit] at hok; simp at hok
    | some boa =>
      obtain ⟨before, orig, after⟩ := boa
      rw [hsplit] at hok
      simp only [Bool.and_eq_true, beq_iff_eq] at hok
      obtain ⟨⟨horig, hcount⟩, hnoB⟩ := hok
      obtain ⟨hpieces, hcbefore⟩ := entrySplit_eq p pieces before orig after hsplit
      show List.foldl _ (replaceFirst p o (renderPieces processed pieces)) rest = _
      have hrender : renderPieces processed pieces
          = renderPieces processed before ++ p ++ renderPieces processed after := by
        rw [hpieces, renderPieces_append, renderPieces_cons]
        have hmid : renderPiece processed (Sum.inr (p, orig)) = p := by
          simp [renderPiece, hpnp]
        rw [hmid]
        simp [List.append_assoc]
      rw [hrender,
        replaceFirst_noEarly p o _ hpne _ (noEarlyOcc_of_B _ _ _ hnoB)]
      have hrender2 : renderPieces processed before ++ o ++ renderPieces processed after
          = renderPieces (processed ++ [p]) pieces := by
        rw [hpieces, renderPieces_append, renderPieces_cons]
        have h1 : renderPieces (processed ++ [p]) before = renderPieces processed before := by
          apply renderPieces_congr
          intro x hx
          apply renderPiece_snoc_ne
          intro pr hxpr
          subst hxpr
          exact entryCount_zero_not_mem p before hcbefore pr hx
        have h2 : renderPieces (processed ++ [p]) after = renderPieces processed after := by
          apply renderPieces_congr
          intro x hx
          apply renderPiece_snoc_ne
          intro pr hxpr
          subst hxpr
          exact entryCount_zero_not_mem p after hcount pr hx
        have h3 : renderPiece (processed ++ [p]) (Sum.inr (p, orig)) = orig := by
          simp [renderPiece]
        rw [h1, h2, h3, horig]
        simp [List.append_assoc]
      rw [hrender2, ih (processed ++ [p]) hrest]
      simp

/-! ## Claim C1 -/

/-- C1 (amended): with escaping disabled and the identity strategy, masking
followed by unmasking (the masked segment itself as the black-box result)
returns the original segment, provided the masking run admits a clean piece
decomposition: its output is the rendering of a piece list whose originals
reassemble the segment, and each placeholder's first occurrence in the
partially restored target is the designated one (`CleanUnmask`). -/
theorem C1_roundtrip_identity (oracle : Str → Str → Decomp) (cats : List Str)
    (segment : Str) (pieces : List Piece)
    (hmask : mask_segment MASKING_IDENTITY false oracle cats segment
      = (renderPieces [] pieces, piecesEntries pieces))
    (horig : piecesOriginal pieces = segment)
    (hclean : CleanUnmask pieces [] (piecesEntries pieces)) :
    unmask_segment MASKING_IDENTITY cats
      (mask_segment MASKING_IDENTITY false oracle cats segment).1
      (mask_segment MASKING_IDENTITY false oracle cats segment).1
      (mask_segment MASKING_IDENTITY false oracle cats segment).2 none
    = Except.ok segment := by
  rw [hmask]
  show unmask_segment MASKING_IDENTITY cats (renderPieces [] pieces)
    (renderPieces [] pieces) (piecesEntries pieces) none = Except.ok segment
  unfold unmask_segment
  by_cases hemp : (piecesEntries pieces).isEmpty
  · rw [if_pos hemp]
    have hnil : piecesEntries pieces = [] := List.isEmpty_iff.mp hemp
    have : renderPieces [] pieces = piecesOriginal pieces := by
      apply renderPieces_done
      intro pr hm
      have := entry_mem_entries pieces pr hm
      rw [hnil] at this
      simp at this
    rw [this, horig]
  · rw [if_neg hemp]
    have hne : (MASKING_IDENTITY == MASKING_ALIGNMENT) = false := by decide
    rw [hne]
    simp only [Bool.false_eq_true, if_false]
    have hid : (MASKING_IDENTITY == MASKING_IDENTITY) = true := by decide
    rw [hid]
    simp only [if_true]
    have hfold := unmaskFold_restores pieces (piecesEntries pieces) [] hclean
    rw [hfold]
    have : renderPieces ([] ++ (piecesEntries pieces).map Prod.fst) pieces
        = piecesOriginal pieces := by
      apply renderPieces_done
      intro pr hm
      simp only [List.nil_append]
      exact List.mem_map.mpr ⟨pr, entry_mem_entries pieces pr hm, rfl⟩
    rw [this, horig]

/-- Oracle for the C1 witness: on `"a <b> b@c.de f"` the `xml` pattern
matches `<b>`, and on the masked intermediate the `email` pattern matches
`b@c.de`; the `url` pattern never matches. -/
def c1Oracle : Str → Str → Decomp := fun cat s =>
  if cat = lit "xml" ∧ s = lit "a <b> b@c.de f" then
    ⟨lit "a ", [(lit "<b>", lit " b@c.de f")]⟩
  else if cat = lit "email" ∧ s = lit "a __xml_0__ b@c.de f" then
    ⟨lit "a __xml_0__ ", [(lit "b@c.de", lit " f")]⟩
  else ⟨s, []⟩

/-- Piece decomposition of the C1 witness's masked segment. -/
def c1Pieces : List Piece :=
  [.inl (lit "a "), .inr (lit "__xml_0__", lit "<b>"), .inl (lit " "),
   .inr (lit "__email_0__", lit "b@c.de"), .inl (lit " f")]

/-- Witness for C1 (amended) at a concrete two-category masking run. -/
theorem C1_roundtrip_identity_witness :
    unmask_segment MASKING_IDENTITY PROTECTED_PATTERNS_KEYS
      (mask_segment MASKING_IDENTITY false c1Oracle PROTECTED_PATTERNS_KEYS
        (lit "a <b> b@c.de f")).1
      (mask_segment MASKING_IDENTITY false c1Oracle PROTECTED_PATTERNS_KEYS
        (lit "a <b> b@c.de f")).1
      (mask_segment MASKING_IDENTITY false c1Oracle PROTECTED_PATTERNS_KEYS
        (lit "a <b> b@c.de f")).2 none
    = Except.ok (lit "a <b> b@c.de f") :=
  C1_roundtrip_identity c1Oracle PROTECTED_PATTERNS_KEYS (lit "a <b> b@c.de f")
    c1Pieces (by decide) (by decide) (by decide)

instance instDecEqExcept {ε α : Type} [DecidableEq ε] [DecidableEq α] :
    DecidableEq (Except ε α) := fun x y =>
  match x, y with
  | .error a, .error b =>
    if h : a = b then isTrue (by rw [h])
    else isFalse (by intro hc; injection hc; exact h ‹_›)
  | .ok a, .ok b =>
    if h : a = b then isTrue (by rw [h])
    else isFalse (by intro hc; injection hc; exact h ‹_›)
  | .error _, .ok _ => isFalse (by intro hc; exact Except.noConfusion hc)
  | .ok _, .error _ => isFalse (by intro hc; exact Except.noConfusion hc)

/-- C1 counterexample: with the Masker's default escaping on, masking
escapes the ampersand but unmasking never de-escapes, so the round trip
already fails on `"a & b"`, a segment no protected pattern matches. -/
theorem C1_counterexample :
    unmask_segment MASKING_IDENTITY PROTECTED_PATTERNS_KEYS
      (mask_segment MASKING_IDENTITY true (fun _ s => ⟨s, []⟩)
        PROTECTED_PATTERNS_KEYS (lit "a & b")).1
      (mask_segment MASKING_IDENTITY true (fun _ s => ⟨s, []⟩)
        PROTECTED_PATTERNS_KEYS (lit "a & b")).1
      (mask_segment MASKING_IDENTITY true (fun _ s => ⟨s, []⟩)
        PROTECTED_PATTERNS_KEYS (lit "a & b")).2 none
    ≠ Except.ok (lit "a & b") := by decide

/-! ## Claim C2 -/

/-- C2: the shared-symbol unmasking evaluated at the repository's own test
case (`test_masking.py`, `TestAlignmentMasker`, last `unmask` case, which
expects `Message moi à an@ribute.com ou <a> http://www.statmt.org </a>`).
Because `_is_mask_token` consults only the first configured category, the
code replaces only the `__xml__` placeholders and leaves `__email__` and
`__url__` in place. -/
theorem C2_first_category_eval :
    unmask_segment MASKING_ALIGNMENT PROTECTED_PATTERNS_KEYS
      (lit "Email me at __email__ or __xml__ __url__ __xml__")
      (lit "Message moi à __email__ ou __xml__ __url__ __xml__")
      [(lit "__url__", lit "http://www.statmt.org"), (lit "__xml__", lit "<a>"),
       (lit "__xml__", lit "</a>"), (lit "__email__", lit "an@ribute.com")]
      (some [(0, [0]), (1, [1]), (2, [2]), (3, [3]), (4, [4]), (5, [5]), (6, [6]), (7, [7])])
    = Except.ok (lit "Message moi à __email__ ou <a> __url__ </a>")
    ∧ lit "Message moi à __email__ ou <a> __url__ </a>"
      ≠ lit "Message moi à an@ribute.com ou <a> http://www.statmt.org </a>" := by
  constructor
  · decide
  · decide

/-! ## Claim C3 -/

/-- C3 counterexample: on the shared-symbol path with duplicate placeholders
and `alignment=None`, `unmask_segment` subscripts `None` and raises (a
`TypeError`) instead of degrading to "leave placeholder in output". -/
theorem C3_counterexample :
    unmask_segment MASKING_ALIGNMENT PROTECTED_PATTERNS_KEYS
      (lit "__xml__ x __xml__") (lit "__xml__ y __xml__")
      [(lit "__xml__", lit "<a>"), (lit "__xml__", lit "</a>")] none
    = Except.error UnmaskErr.typeNone := by decide

theorem tryCandidates_none (strategy : Str) (cats : List Str) (stok : Str) :
    ∀ (cands : List Nat) (tgt : List Str) (mapping : List (Str × Str)),
      (∀ c ∈ cands, ∃ hc : c < tgt.length,
        isMaskToken strategy cats (tgt.get ⟨c, hc⟩) = false) →
      tryCandidates strategy cats stok cands tgt mapping = .ok none := by
  intro cands
  induction cands with
  | nil => intro tgt mapping _; rfl
  | cons c rest ih =>
    intro tgt mapping h
    obtain ⟨hc, hmask⟩ := h c (by simp)
    simp only [tryCandidates]
    rw [dif_pos hc, hmask]
    simp only [Bool.false_eq_true, if_false]
    exact ih tgt mapping (fun c' hm => h c' (by simp [hm]))

theorem unmaskAlignLoop_noop (cats : List Str) (al : List (Nat × List Nat)) :
    ∀ (srcToks : List Str) (i : Nat) (tgt : List Str) (mapping : List (Str × Str)),
      (∀ k (hk : k < srcToks.length),
        isMaskToken MASKING_ALIGNMENT cats (srcToks.get ⟨k, hk⟩) = true →
        ∃ cands, lookupNat al (i + k) = some cands ∧
          ∀ c ∈ cands, ∃ hc : c < tgt.length,
            isMaskToken MASKING_ALIGNMENT cats (tgt.get ⟨c, hc⟩) = false) →
      unmaskAlignLoop MASKING_ALIGNMENT cats (some al) i srcToks tgt mapping
        = .ok (tgt, mapping) := by
  intro srcToks
  induction srcToks with
  | nil => intro i tgt mapping _; rfl
  | cons stok rest ih =>
    intro i tgt mapping h
    simp only [unmaskAlignLoop]
    cases hmask : isMaskToken MASKING_ALIGNMENT cats stok with
    | false =>
      simp only [Bool.false_eq_true, if_false]
      refine ih (i + 1) tgt mapping ?_
      intro k hk hm
      have := h (k + 1) (by simpa using Nat.succ_lt_succ hk) (by simpa using hm)
      simpa [Nat.add_assoc, Nat.add_comm 1 k] using this
    | true =>
      simp only [if_true]
      obtain ⟨cands, hlook, hgood⟩ := h 0 (by simp) (by simpa using hmask)
      rw [Nat.add_zero] at hlook
      simp only [hlook,
        tryCandidates_none MASKING_ALIGNMENT cats stok cands tgt mapping hgood]
      refine ih (i + 1) tgt mapping ?_
      intro k hk hm
      have := h (k + 1) (by simpa using Nat.succ_lt_succ hk) (by simpa using hm)
      simpa [Nat.add_assoc, Nat.add_comm 1 k] using this

/-- C3 (amended): on the shared-symbol path with duplicate placeholders the
operation raises on a malformed or absent alignment (see the
counterexample); only when the alignment is present, covers every source
mask index, and all aligned target indices are in range but none of the
aligned target tokens carries a placeholder does it log, leave every
placeholder instance in place and return the segment unchanged. -/
theorem C3_wellformed_no_carrier (cats : List Str) (src tgt : Str)
    (mapping : List (Str × Str)) (al : List (Nat × List Nat))
    (hne : mapping.isEmpty = false)
    (hdup : (((mapping.map Prod.fst).dedup).length == (mapping.map Prod.fst).length) = false)
    (H : ∀ k (hk : k < (splitOnSpace src).length),
      isMaskToken MASKING_ALIGNMENT cats ((splitOnSpace src).get ⟨k, hk⟩) = true →
      ∃ cands, lookupNat al k = some cands ∧
        ∀ c ∈ cands, ∃ hc : c < (splitOnSpace tgt).length,
          isMaskToken MASKING_ALIGNMENT cats ((splitOnSpace tgt).get ⟨c, hc⟩) = false) :
    unmask_segment MASKING_ALIGNMENT cats src tgt mapping (some al)
      = .ok (joinSpace (splitOnSpace tgt)) := by
  unfold unmask_segment
  rw [hne]
  simp only [Bool.false_eq_true, if_false]
  have hid : (MASKING_ALIGNMENT == MASKING_ALIGNMENT) = true := by decide
  rw [hid]
  simp only [if_true, hdup]
  rw [unmaskAlignLoop_noop cats al (splitOnSpace src) 0 (splitOnSpace tgt) mapping
    (by intro k hk hm; simpa using H k hk hm)]
  rfl

/-- Witness for C3 (amended): a well-formed alignment whose aligned target
tokens carry no placeholder leaves the target unchanged and does not raise. -/
theorem C3_wellformed_no_carrier_witness :
    unmask_segment MASKING_ALIGNMENT PROTECTED_PATTERNS_KEYS
      (lit "__xml__ a __xml__") (lit "x y z")
      [(lit "__xml__", lit "<a>"), (lit "__xml__", lit "</a>")]
      (some [(0, [0]), (2, [2])])
    = .ok (joinSpace (splitOnSpace (lit "x y z"))) :=
  C3_wellformed_no_carrier PROTECTED_PATTERNS_KEYS
    (lit "__xml__ a __xml__") (lit "x y z")
    [(lit "__xml__", lit "<a>"), (lit "__xml__", lit "</a>")]
    [(0, [0]), (2, [2])] (by decide) (by decide) (by decide)

/-! ## `mtrain/preprocessing/reinsertion.py` -/

/-- `REINSERTION_FULL` from `constants.py`. -/
def REINSERTION_FULL : Str := lit "full"

/-- `REINSERTION_SEGMENTATION` from `constants.py`. -/
def REINSERTION_SEGMENTATION : Str := lit "segmentation"

/-- `REINSERTION_ALIGNMENT` from `constants.py`. -/
def REINSERTION_ALIGNMENT : Str := lit "alignment"

/-- `_is_opening_tag`, the prefix match of
`<[a-zA-Z_][^<>\/]*(".*")?[^\/<>]*>`; modelled for tags without `>` or `/`
inside quoted attribute values (where the optional quoted group is inert and
the regex reduces to `<`, a name character, a run of non-`<>/` characters,
then `>`). -/
def isOpeningTag (tok : Str) : Bool :=
  match tok with
  | '<' :: c :: rest =>
    if c.isAlpha || c = '_' then
      match rest.drop (rest.takeWhile
          (fun ch => ch != '<' && ch != '>' && ch != '/')).length with
      | '>' :: _ => true
      | _ => false
    else false
  | _ => false

/-- `_is_closing_tag`, the prefix match of `<\/[a-zA-Z_][^\/<> ]* *>`. -/
def isClosingTag (tok : Str) : Bool :=
  match tok with
  | '<' :: '/' :: c :: rest =>
    if c.isAlpha || c = '_' then
      let rest2 := rest.drop (rest.takeWhile
        (fun ch => ch != '/' && ch != '<' && ch != '>' && ch != ' ')).length
      match rest2.drop (rest2.takeWhile (fun ch => ch == ' ')).length with
      | '>' :: _ => true
      | _ => false
    else false
  | _ => false

/-- `_is_selfclosing_tag`, the prefix match of `<[a-zA-Z_][^\/<>]*\/>`. -/
def isSelfclosingTag (tok : Str) : Bool :=
  match tok with
  | '<' :: c :: rest =>
    if c.isAlpha || c = '_' then
      match rest.drop (rest.takeWhile
          (fun ch => ch != '/' && ch != '<' && ch != '>')).length with
      | '/' :: '>' :: _ => true
      | _ => false
    else false
  | _ => false

/-- The prefix match of `<[^<>]+>` used by `_tag_indexes_from_tokens`. -/
def isSimpleTag (tok : Str) : Bool :=
  match tok with
  | '<' :: rest =>
    let run := rest.takeWhile (fun ch => ch != '<' && ch != '>')
    !run.isEmpty &&
      match rest.drop run.length with
      | '>' :: _ => true
      | _ => false
  | _ => false

/-- `_tag_in_list`. -/
def tagInList (tokens : List Str) : Bool :=
  tokens.any (fun t => isOpeningTag t || isClosingTag t || isSelfclosingTag t)

/-- Worker for `tokenize_keep_markup`: scan characters, splitting text on
single spaces but keeping a `<...>` stretch (up to the next `>`) as one
token; empty fields are dropped, as `return_nodes` filters whitespace-only
nodes. The fuel only makes the recursion structural. -/
def takeToGt : Str → (Str × Str)
  | [] => ([], [])
  | c :: rest =>
    if c = '>' then ([c], rest)
    else
      let r := takeToGt rest
      (c :: r.1, r.2)

def tkmAuxF : Nat → Str → Str → List Str
  | 0, cur, _ => if cur = [] then [] else [cur]
  | fuel + 1, cur, s =>
    match s with
    | [] => if cur = [] then [] else [cur]
    | c :: rest =>
      if c = ' ' then
        if cur = [] then tkmAuxF fuel [] rest else cur :: tkmAuxF fuel [] rest
      else if c = '<' then
        let tg := takeToGt rest
        if cur = [] then ('<' :: tg.1) :: tkmAuxF fuel [] tg.2
        else cur :: ('<' :: tg.1) :: tkmAuxF fuel [] tg.2
      else tkmAuxF fuel (cur ++ [c]) rest

/-- `tokenize_keep_markup`, modelled for markup without XML entities,
comments or attribute values containing `>` (on such input the SAX scan of
the source is exactly: split on spaces, dropping empty nodes, except that a
tag from `<` to the matching `>` forms a single token even across spaces).
-/
def tokenize_keep_markup (s : Str) : List Str := tkmAuxF s.length [] s

/-! ### Association-list models of the Python dictionaries -/

/-- `defaultdict(list)`-style append: extend the list at key `k`, inserting
the key at the end on first touch (Python dict insertion order). -/
def alistAppend {κ : Type} [DecidableEq κ] : List (κ × List Str) → κ → Str → List (κ × List Str)
  | [], k, v => [(k, [v])]
  | (k', vs) :: rest, k, v =>
    if k' = k then (k', vs ++ [v]) :: rest else (k', vs) :: alistAppend rest k v

/-- Dict lookup. -/
def alistLookup {κ ν : Type} [DecidableEq κ] : List (κ × ν) → κ → Option ν
  | [], _ => none
  | (k', v) :: rest, k => if k' = k then some v else alistLookup rest k

/-- `del d[k]`. -/
def alistErase {κ ν : Type} [DecidableEq κ] : List (κ × ν) → κ → List (κ × ν)
  | [], _ => []
  | (k', v) :: rest, k => if k' = k then rest else (k', v) :: alistErase rest k

/-- `d[k] = v`: overwrite in place, else append (Python dict semantics). -/
def alistSet {κ ν : Type} [DecidableEq κ] : List (κ × ν) → κ → ν → List (κ × ν)
  | [], k, v => [(k, v)]
  | (k', v') :: rest, k, v =>
    if k' = k then (k', v) :: rest else (k', v') :: alistSet rest k v

/-- Stable insertion sort (the semantics of Python `sorted`). -/
def insertBy {α : Type} (le : α → α → Bool) (x : α) : List α → List α
  | [] => [x]
  | y :: rest => if le x y then x :: y :: rest else y :: insertBy le x rest

def sortByKey {α : Type} (le : α → α → Bool) : List α → List α
  | [] => []
  | x :: rest => insertBy le x (sortByKey le rest)

/-- Lexicographic order on natural pairs (Python tuple comparison). -/
def lexLE (a b : Nat × Nat) : Bool :=
  a.1 < b.1 || (a.1 == b.1 && a.2 ≤ b.2)

/-- `sorted` over integer keys. -/
def sortInts (l : List Int) : List Int := sortByKey (fun a b => a ≤ b) l

/-- Tags of the leftover maps, appended by ascending key
(`for key in sorted(d.keys()): output.extend(d[key])`). -/
def appendLeftovers (m : List (Int × List Str)) : List Str :=
  (sortInts (m.map Prod.fst)).flatMap (fun k => (alistLookup m k).getD [])

/-! ### `_tag_indexes_from_tokens` (alignment strategy) -/

def tagIndexesAux : Nat → Nat → List Str → List (Int × List Str) → List (Int × List Str)
  | _, _, [], al => al
  | i, off, tok :: rest, al =>
    if isSimpleTag tok then
      tagIndexesAux (i + 1) (off + 1) rest (alistAppend al ((i : Int) - (off : Int)) tok)
    else tagIndexesAux (i + 1) off rest al

/-- `_tag_indexes_from_tokens`: positions of tag tokens in "tags already
seen removed" coordinates. -/
def tagIndexesFromTokens (toks : List Str) : List (Int × List Str) :=
  tagIndexesAux 0 0 toks []

/-! ### `_reinsert_markup_alignment` -/

/-- Inversion of the alignment (`target_to_source_alignment`), last writer
wins. -/
def invertAlignment (al : List (Int × List Nat)) : List (Nat × Int) :=
  al.foldl (fun acc kv => kv.2.foldl (fun acc2 t => alistSet acc2 t kv.1) acc) []

/-- The target-token walk of `_reinsert_markup_alignment`. -/
def almWalk (t2s : List (Nat × Int)) :
    Nat → List Str → List (Int × List Str) → List Str → (List Str × List (Int × List Str))
  | _, [], elems, out => (out, elems)
  | ti, tok :: rest, elems, out =>
    match alistLookup t2s ti with
    | some si =>
      match alistLookup elems si with
      | some ts => almWalk t2s (ti + 1) rest (alistErase elems si) (out ++ ts ++ [tok])
      | none => almWalk t2s (ti + 1) rest elems (out ++ [tok])
    | none => almWalk t2s (ti + 1) rest elems (out ++ [tok])

/-- `Reinserter._reinsert_markup_alignment`. -/
def reinsert_markup_alignment (forceAll : Bool) (sourceSegment targetSegment : Str)
    (alignment : List (Int × List Nat)) : Str :=
  let sourceTokens := tokenize_keep_markup sourceSegment
  let targetTokens := splitOnSpace targetSegment
  let elems := tagIndexesFromTokens sourceTokens
  let t2s := invertAlignment alignment
  let r := almWalk t2s 0 targetTokens elems []
  let lastIndex : Int := (targetTokens.length : Int)
  let r2 :=
    match alistLookup r.2 lastIndex with
    | some ts => (r.1 ++ ts, alistErase r.2 lastIndex)
    | none => (r.1, r.2)
  joinSpace (if forceAll then r2.1 ++ appendLeftovers r2.2 else r2.1)

/-! ### `_tag_indexes_from_tokens_segmentation` and `_reinsert_markup_segmentation` -/

def tagIndexesSegmAux :
    Nat → Nat → List Str → List (Int × List Str) → List (Int × List Str) →
    (List (Int × List Str) × List (Int × List Str))
  | _, _, [], op, cl => (op, cl)
  | i, off, tok :: rest, op, cl =>
    if isOpeningTag tok || isSelfclosingTag tok then
      tagIndexesSegmAux (i + 1) (off + 1) rest
        (alistAppend op ((i : Int) - (off : Int)) tok) cl
    else if isClosingTag tok then
      tagIndexesSegmAux (i + 1) (off + 1) rest op
        (alistAppend cl ((i : Int) - (off : Int) - 1) tok)
    else tagIndexesSegmAux (i + 1) off rest op cl

/-- `_tag_indexes_from_tokens_segmentation`: opening (and self-closing) tags
keyed by `index - offset`, closing tags by `index - offset - 1`. -/
def tagIndexesSegm (toks : List Str) : List (Int × List Str) × List (Int × List Str) :=
  tagIndexesSegmAux 0 0 toks [] []

/-- Python `l[a:b]` for non-negative bounds. -/
def pySlice (l : List Str) (a b : Nat) : List Str := (l.drop a).take (b - a)

/-- `_indexes_from_segmentation`: `range(start, end+1)`. -/
def indexesFromSegmentation (t : Nat × Nat) : List Int :=
  List.map (fun n : Nat => (n : Int)) (List.range' t.1 (t.2 + 1 - t.1))

/-- One `if index in d: collect; del d[index]` step of the phrase walk. -/
def phraseStep (m : List (Int × List Str)) (idx : Int) (acc : List Str) :
    List Str × List (Int × List Str) :=
  match alistLookup m idx with
  | some ts => (acc ++ ts, alistErase m idx)
  | none => (acc, m)

/-- The `for index in relevant_source_indexes` body: collect and delete the
opening and closing tags pending at each index of the phrase's source span. -/
def collectPhrase :
    List Int → List (Int × List Str) → List (Int × List Str) → List Str → List Str →
    (List Str × List Str × List (Int × List Str) × List (Int × List Str))
  | [], op, cl, accOpen, accClose => (accOpen, accClose, op, cl)
  | idx :: rest, op, cl, accOpen, accClose =>
    let so := phraseStep op idx accOpen
    let sc := phraseStep cl idx accClose
    collectPhrase rest so.2 sc.2 so.1 sc.1

/-- The walk over the target phrases, sorted by target span. -/
def walkPhrases :
    List (((Nat × Nat) × (Nat × Nat)) × List Str × List Str) →
    List (Int × List Str) → List (Int × List Str) → List Str →
    (List Str × List (Int × List Str) × List (Int × List Str))
  | [], op, cl, out => (out, op, cl)
  | ph :: rest, op, cl, out =>
    let r := collectPhrase (indexesFromSegmentation ph.1.1) op cl [] []
    walkPhrases rest r.2.2.1 r.2.2.2 (out ++ r.1 ++ ph.2.2 ++ r.2.1)

/-- `Reinserter._reinsert_markup_segmentation`. Segmentation spans are
modelled as natural numbers (Moses spans are non-negative). -/
def reinsert_markup_segmentation (forceAll : Bool) (sourceSegment targetSegment : Str)
    (segmentation : List ((Nat × Nat) × (Nat × Nat))) : Str :=
  let sourceTokens := tokenize_keep_markup sourceSegment
  let targetTokens := splitOnSpace targetSegment
  let targetPhrases := segmentation.map (fun st =>
    (st, pySlice sourceTokens st.1.1 (st.1.2 + 1), pySlice targetTokens st.2.1 (st.2.2 + 1)))
  let maps := tagIndexesSegm sourceTokens
  let sorted := sortByKey (fun a b => lexLE a.1.2 b.1.2) targetPhrases
  let r := walkPhrases sorted maps.1 maps.2 []
  joinSpace (if forceAll then r.1 ++ appendLeftovers r.2.1 ++ appendLeftovers r.2.2 else r.1)

/-! ### `_next_source_tag_region` and `_reinsert_markup_full` -/

/-- Result of one scanning pass of the `_next_source_tag_region` generator. -/
inductive PassResult where
  /-- a region was yielded; carries the mutated token list. -/
  | yielded (opening : Int × Str) (region : List Int) (closing : Option (Int × Str))
      (newTokens : List Str)
  /-- an unmatched closing tag: the generator prints and calls `sys.exit`. -/
  | exited
  /-- the pass ended without a yield (only unmatched opening tags remain). -/
  | nothingFound

/-- One pass of the generator over the current token list. -/
def strPassGo (full : List Str) :
    Nat → Nat → Option (Nat × Str) → List Int → List Str → PassResult
  | _, _, _, _, [] => .nothingFound
  | i, off, curOpen, curIdxs, tok :: rest =>
    if isSelfclosingTag tok then
      .yielded ((i : Int) - (off : Int), tok) [] none (full.eraseIdx i)
    else if isClosingTag tok then
      match curOpen with
      | none => .exited
      | some jt =>
        .yielded (((jt.1 : Int)) - (off : Int), jt.2) curIdxs
          (some ((i : Int) - (off : Int), tok)) ((full.eraseIdx i).eraseIdx jt.1)
    else if isOpeningTag tok then
      strPassGo full (i + 1) (off + 1) (some (i, tok)) [] rest
    else
      match curOpen with
      | some _ => strPassGo full (i + 1) off curOpen (curIdxs ++ [(i : Int) - (off : Int)]) rest
      | none => strPassGo full (i + 1) off curOpen curIdxs rest

/-- Outcome of running the generator to exhaustion. -/
inductive STRResult where
  | ok (triples : List ((Int × Str) × List Int × Option (Int × Str)))
  | exited
  /-- tags remain but a pass yields nothing: the Python generator loops
  forever (unmatched opening tags). -/
  | stuck
deriving DecidableEq

/-- Run the `while _tag_in_list(...)` loop; each yield removes at least one
token, so fuel `length + 1` is enough. -/
def strRegions : Nat → List Str → STRResult
  | 0, _ => .stuck
  | fuel + 1, toks =>
    if tagInList toks then
      match strPassGo toks 0 0 none [] toks with
      | .yielded op reg cl newToks =>
        match strRegions fuel newToks with
        | .ok rest => .ok ((op, reg, cl) :: rest)
        | r => r
      | .exited => .exited
      | .nothingFound => .stuck
    else .ok []

/-- `_next_source_tag_region`, as the list of yielded triples. -/
def nextSourceTagRegions (toks : List Str) : STRResult :=
  strRegions (toks.length + 1) toks

/-- Exceptions the full-strategy code can raise, and the generator's two
abnormal ends. -/
inductive ReinsertErr where
  /-- `KeyError` from a dict subscript (`alignment[...]`, `segmentation[...]`). -/
  | keyMissing
  /-- an uncaught `IndexError`. -/
  | indexRange
  /-- `ValueError` from `min`/`max` of an empty sequence. -/
  | valueEmpty
  /-- the generator hit an unmatched closing tag and called `sys.exit`. -/
  | exitCalled
  /-- the generator would loop forever on unmatched opening tags. -/
  | diverges
  /-- unknown reinsertion strategy (`NotImplementedError`). -/
  | notImplemented
deriving DecidableEq

/-- `_find_source_phrase_regions`: collect the source spans that share an
index with the tag region, stopping at the first gap, and sort them. -/
def findSPRAux (region : List Int) :
    List ((Nat × Nat) × (Nat × Nat)) → List (Nat × Nat) → List (Nat × Nat)
  | [], acc => acc
  | (se, _) :: rest, acc =>
    if region.any (fun idx => decide ((se.1 : Int) ≤ idx) && decide (idx ≤ (se.2 : Int))) then
      findSPRAux region rest (acc ++ [se])
    else if acc.isEmpty then findSPRAux region rest acc
    else acc

def findSPR (region : List Int) (segm : List ((Nat × Nat) × (Nat × Nat))) : List (Nat × Nat) :=
  sortByKey lexLE (findSPRAux region segm [])

/-- `_find_target_covering_phrases`: map each collected source span to its
target span (`segmentation[tuple]`; the key was just collected from the
dict, so the lookup cannot fail, but a missing key is modelled faithfully). -/
def findTCP (segm : List ((Nat × Nat) × (Nat × Nat))) :
    List (Nat × Nat) → Except ReinsertErr (List (Nat × Nat))
  | [] => .ok []
  | se :: rest =>
    match alistLookup segm se with
    | none => .error .keyMissing
    | some tgt =>
      match findTCP segm rest with
      | .error e => .error e
      | .ok ts => .ok (tgt :: ts)

/-- `_str_spr_coincide`: tag-region boundaries against the first start and
last end of the sorted source phrase regions; subscripting an empty list
raises. -/
def strSprCoincide (region : List Int) (spr : List (Nat × Nat)) : Except ReinsertErr Bool :=
  match region, spr with
  | [], _ => .error .indexRange
  | _, [] => .error .indexRange
  | r :: rs, s :: ss =>
    .ok (decide (r = ((s.1 : Nat) : Int)) &&
      decide ((r :: rs).getLastD 0 = ((((s :: ss).getLastD (0, 0)).2 : Nat) : Int)))

/-- `_tcp_is_contiguous`. -/
def tcpContiguousAux : (Nat × Nat) → List (Nat × Nat) → Bool
  | _, [] => true
  | last, (s, e) :: rest =>
    if ((last.2 : Int)) ≠ ((s : Int)) - 1 then false
    else tcpContiguousAux (s, e) rest

def tcpContiguous : List (Nat × Nat) → Bool
  | [] => true
  | p :: rest => tcpContiguousAux p rest

/-- `relevant_alignments`: `alignment[index]` for every region index. -/
def relevantAlignments (al : List (Int × List Nat)) :
    List Int → Except ReinsertErr (List Nat)
  | [] => .ok []
  | idx :: rest =>
    match alistLookup al idx with
    | none => .error .keyMissing
    | some vs =>
      match relevantAlignments al rest with
      | .error e => .error e
      | .ok ws => .ok (vs ++ ws)

/-- Python `min(l, key=lambda x: x[0])`: first minimum. -/
def minByFst : List (Nat × Nat) → Except ReinsertErr (Nat × Nat)
  | [] => .error .valueEmpty
  | x :: rest => .ok (rest.foldl (fun m y => if y.1 < m.1 then y else m) x)

/-- Python `max(l, key=lambda x: x[1])`: first maximum. -/
def maxBySnd : List (Nat × Nat) → Except ReinsertErr (Nat × Nat)
  | [] => .error .valueEmpty
  | x :: rest => .ok (rest.foldl (fun m y => if y.2 > m.2 then y else m) x)

/-- `min`/`max` of a list of naturals (`ValueError` on empty is caught at
the call sites that guard it). -/
def natMin : List Nat → Option Nat
  | [] => none
  | x :: rest => some (rest.foldl Nat.min x)

def natMax : List Nat → Option Nat
  | [] => none
  | x :: rest => some (rest.foldl Nat.max x)

/-- `range(a, b+1)` over naturals. -/
def natRangeIncl (a b : Nat) : List Nat := List.range' a (b + 1 - a)

/-- The changes contributed by one tag-region triple in
`_reinsert_markup_full`, in their append order. -/
def tripleChanges (segm : List ((Nat × Nat) × (Nat × Nat))) (al : List (Int × List Nat))
    (targetLen : Nat) (tr : (Int × Str) × List Int × Option (Int × Str)) :
    Except ReinsertErr (List (Nat × Str)) :=
  let op := tr.1
  let region := tr.2.1
  match tr.2.2 with
  | none =>
    match alistLookup al op.1 with
    | none => .error .keyMissing
    | some [] => .ok [(targetLen, op.2)]
    | some (c :: _) => .ok [(c, op.2)]
  | some cl =>
    if region.isEmpty then
      match alistLookup al op.1 with
      | none => .error .keyMissing
      | some [] => .error .indexRange
      | some (c :: _) => .ok [(c + 1, joinSpace [op.2, cl.2])]
    else
      let spr := findSPR region segm
      match findTCP segm spr with
      | .error e => .error e
      | .ok tcp =>
        match strSprCoincide region spr with
        | .error e => .error e
        | .ok coincide =>
          if coincide then
            if tcpContiguous tcp then
              match tcp, tcp.getLastD (0, 0) with
              | [], _ => .error .indexRange
              | first :: _, last => .ok [(last.2 + 1, cl.2), (first.1, op.2)]
            else
              match minByFst tcp, maxBySnd tcp with
              | .error e, _ => .error e
              | _, .error e => .error e
              | .ok mn, .ok mx => .ok [(mn.1, op.2), (mx.2 + 1, cl.2)]
          else
            match relevantAlignments al region with
            | .error e => .error e
            | .ok ra =>
              if tcpContiguous tcp then
                let io := (natMin ra).getD targetLen
                let ic := ((natMax ra).map (· + 1)).getD (targetLen + 1)
                .ok [(io, op.2), (ic, cl.2)]
              else
                match minByFst tcp, maxBySnd tcp with
                | .error e, _ => .error e
                | _, .error e => .error e
                | .ok lf, .ok rt =>
                  let openChange :=
                    match (natRangeIncl lf.1 lf.2).find? (fun i => ra.contains i) with
                    | some i => [(i, op.2)]
                    | none => []
                  let closeChange :=
                    match ((natRangeIncl rt.1 rt.2).reverse).find? (fun i => ra.contains i) with
                    | some i => [(i, cl.2)]
                    | none => []
                  .ok (openChange ++ closeChange)

/-- The changes of all triples, in loop order. -/
def collectChanges (segm : List ((Nat × Nat) × (Nat × Nat))) (al : List (Int × List Nat))
    (targetLen : Nat) :
    List ((Int × Str) × List Int × Option (Int × Str)) → Except ReinsertErr (List (Nat × Str))
  | [] => .ok []
  | tr :: rest =>
    match tripleChanges segm al targetLen tr with
    | .error e => .error e
    | .ok cs =>
      match collectChanges segm al targetLen rest with
      | .error e => .error e
      | .ok rs => .ok (cs ++ rs)

/-- `list.insert(p, x)` for a non-negative position (Python clamps above). -/
def insertAt (l : List Str) (p : Nat) (x : Str) : List Str :=
  l.take p ++ [x] ++ l.drop p

/-- Apply the collected changes in descending position order (stable). -/
def applyChanges (targetTokens : List Str) (changes : List (Nat × Str)) : List Str :=
  (sortByKey (fun a b => b.1 ≤ a.1) changes).foldl
    (fun tgt ch => insertAt tgt ch.1 ch.2) targetTokens

/-- `Reinserter._reinsert_markup_full`. -/
def reinsert_markup_full (sourceSegment targetSegment : Str)
    (segm : List ((Nat × Nat) × (Nat × Nat))) (al : List (Int × List Nat)) :
    Except ReinsertErr Str :=
  let sourceTokens := tokenize_keep_markup sourceSegment
  let targetTokens := splitOnSpace targetSegment
  match nextSourceTagRegions sourceTokens with
  | .exited => .error .exitCalled
  | .stuck => .error .diverges
  | .ok triples =>
    match collectChanges segm al targetTokens.length triples with
    | .error e => .error e
    | .ok changes => .ok (joinSpace (applyChanges targetTokens changes))

/-- `Reinserter.reinsert_markup`: dispatch on the strategy string; an
unknown strategy raises `NotImplementedError`. -/
def reinsert_markup (strategy : Str) (forceAll : Bool) (sourceSegment targetSegment : Str)
    (segm : List ((Nat × Nat) × (Nat × Nat))) (al : List (Int × List Nat)) :
    Except ReinsertErr Str :=
  if strategy == REINSERTION_FULL then
    reinsert_markup_full sourceSegment targetSegment segm al
  else if strategy == REINSERTION_SEGMENTATION then
    .ok (reinsert_markup_segmentation forceAll sourceSegment targetSegment segm)
  else if strategy == REINSERTION_ALIGNMENT then
    .ok (reinsert_markup_alignment forceAll sourceSegment targetSegment al)
  else .error .notImplemented

/-! ## Claim C8 -/

/-- C8: the alignment-only reinsertion of `<b>...</b>` from
`"in the <b> sky </b> much"` into `"dans le ciel beaucoup"` under the
diagonal alignment over the tag-free source tokens. -/
theorem C8_alignment_example :
    reinsert_markup REINSERTION_ALIGNMENT true
      (lit "in the <b> sky </b> much") (lit "dans le ciel beaucoup")
      [] [(0, [0]), (1, [1]), (2, [2]), (3, [3]), (4, [4])]
    = Except.ok (lit "dans le <b> ciel </b> beaucoup") := by decide

/-! ## Claim C4 -/

/-- C4 (amended): `reinsert_markup` fails immediately on every strategy
string other than `full`, `segmentation` and `alignment` (the code raises
`NotImplementedError`); the Masker, by contrast, does not validate its
strategy — see the counterexample. -/
theorem C4_unknown_reinsertion_strategy (strategy : Str) (forceAll : Bool)
    (src tgt : Str) (segm : List ((Nat × Nat) × (Nat × Nat)))
    (al : List (Int × List Nat))
    (h1 : (strategy == REINSERTION_FULL) = false)
    (h2 : (strategy == REINSERTION_SEGMENTATION) = false)
    (h3 : (strategy == REINSERTION_ALIGNMENT) = false) :
    reinsert_markup strategy forceAll src tgt segm al
      = .error .notImplemented := by
  unfold reinsert_markup
  rw [h1, h2, h3]
  simp

/-- Witness for C4 at the concrete unknown strategy string `bogus`. -/
theorem C4_unknown_reinsertion_strategy_witness :
    reinsert_markup (lit "bogus") true (lit "a <b> c") (lit "x y") [] []
      = .error .notImplemented :=
  C4_unknown_reinsertion_strategy (lit "bogus") true (lit "a <b> c") (lit "x y") [] []
    (by decide) (by decide) (by decide)

/-- Oracle for the C4 counterexample (the `xml` pattern matching the two
tags of the test segment). -/
def c4Oracle : Str → Str → Decomp := fun cat s =>
  if cat = lit "xml" ∧ s = lit "in the <b> sky </b> much" then
    ⟨lit "in the ", [(lit "<b>", lit " sky "), (lit "</b>", lit " much")]⟩
  else ⟨s, []⟩

/-- C4 counterexample: an unknown masking strategy name is not a fatal
error — `mask_segment` silently behaves exactly like the shared-symbol
(`alignment`) branch and returns normally. -/
theorem C4_counterexample :
    mask_segment (lit "bogus") true c4Oracle PROTECTED_PATTERNS_KEYS
        (lit "in the <b> sky </b> much")
      = mask_segment MASKING_ALIGNMENT true c4Oracle PROTECTED_PATTERNS_KEYS
        (lit "in the <b> sky </b> much")
    ∧ (mask_segment (lit "bogus") true c4Oracle PROTECTED_PATTERNS_KEYS
        (lit "in the <b> sky </b> much")).1
      = lit "in the __xml__ sky __xml__ much" := by
  constructor
  · decide
  · decide

/-! ## Claim C6 -/

theorem collectChanges_mem (segm : List ((Nat × Nat) × (Nat × Nat)))
    (al : List (Int × List Nat)) (tlen : Nat) :
    ∀ (triples : List ((Int × Str) × List Int × Option (Int × Str))) changes,
      collectChanges segm al tlen triples = .ok changes →
      ∀ tr ∈ triples, ∃ cs, tripleChanges segm al tlen tr = .ok cs ∧
        ∀ x ∈ cs, x ∈ changes := by
  intro triples
  induction triples with
  | nil => intro changes _ tr h; simp at h
  | cons t rest ih =>
    intro changes hok tr htr
    simp only [collectChanges] at hok
    cases hh : tripleChanges segm al tlen t with
    | error e => rw [hh] at hok; simp at hok
    | ok cs =>
      rw [hh] at hok
      cases hr : collectChanges segm al tlen rest with
      | error e => rw [hr] at hok; simp at hok
      | ok rs =>
        rw [hr] at hok
        simp only [Except.ok.injEq] at hok
        subst hok
        rcases List.mem_cons.mp htr with rfl | hmem
        · exact ⟨cs, hh, fun x hx => List.mem_append.mpr (Or.inl hx)⟩
        · obtain ⟨cs', hcs', hsub⟩ := ih rs hr tr hmem
          exact ⟨cs', hcs', fun x hx => List.mem_append.mpr (Or.inr (hsub x hx))⟩

theorem collectChanges_error (segm : List ((Nat × Nat) × (Nat × Nat)))
    (al : List (Int × List Nat)) (tlen : Nat) :
    ∀ (triples : List ((Int × Str) × List Int × Option (Int × Str))) tr,
      tr ∈ triples → (∃ e', tripleChanges segm al tlen tr = .error e') →
      ∃ e, collectChanges segm al tlen triples = .error e := by
  intro triples
  induction triples with
  | nil => intro tr h _; simp at h
  | cons t rest ih =>
    intro tr htr herr
    simp only [collectChanges]
    rcases List.mem_cons.mp htr with rfl | hmem
    · obtain ⟨e', he'⟩ := herr
      rw [he']
      exact ⟨e', rfl⟩
    · cases hh : tripleChanges segm al tlen t with
      | error e => exact ⟨e, rfl⟩
      | ok cs =>
        obtain ⟨e, he⟩ := ih tr hmem herr
        rw [he]
        exact ⟨e, rfl⟩

/-- C6 (amended): in the full strategy, a tag pair with an empty content
region contributes the single change "insert the concatenated
opening+closing pair at `alignment[opening_index][0] + 1`"; if the opening
index is unaligned (missing from the alignment, or aligned to an empty
list) the operation raises — there is no append-at-the-end fallback (unlike
the self-closing case, whose `IndexError` is caught). -/
theorem C6_empty_region (src tgt : Str) (segm : List ((Nat × Nat) × (Nat × Nat)))
    (al : List (Int × List Nat))
    (triples : List ((Int × Str) × List Int × Option (Int × Str)))
    (op cl : Int × Str)
    (htr : nextSourceTagRegions (tokenize_keep_markup src) = .ok triples)
    (hmem : (op, [], some cl) ∈ triples) :
    (∀ changes, collectChanges segm al (splitOnSpace tgt).length triples = .ok changes →
      ∃ c cs, alistLookup al op.1 = some (c :: cs) ∧
        (c + 1, joinSpace [op.2, cl.2]) ∈ changes)
    ∧ ((alistLookup al op.1 = none ∨ alistLookup al op.1 = some []) →
      ∃ e, reinsert_markup_full src tgt segm al = .error e) := by
  constructor
  · intro changes hok
    obtain ⟨cs, hcs, hsub⟩ :=
      collectChanges_mem segm al (splitOnSpace tgt).length triples changes hok _ hmem
    simp only [tripleChanges, List.isEmpty_nil, if_true] at hcs
    cases hl : alistLookup al op.1 with
    | none => rw [hl] at hcs; simp at hcs
    | some vs =>
      rw [hl] at hcs
      cases vs with
      | nil => simp at hcs
      | cons c rest =>
        simp only [Except.ok.injEq] at hcs
        subst hcs
        exact ⟨c, rest, rfl, hsub _ (by simp)⟩
  · intro hbad
    have herr : ∃ e', tripleChanges segm al (splitOnSpace tgt).length (op, [], some cl)
        = .error e' := by
      simp only [tripleChanges, List.isEmpty_nil, if_true]
      rcases hbad with hl | hl
      · rw [hl]; exact ⟨.keyMissing, rfl⟩
      · rw [hl]; exact ⟨.indexRange, rfl⟩
    obtain ⟨e, he⟩ :=
      collectChanges_error segm al (splitOnSpace tgt).length triples _ hmem herr
    refine ⟨e, ?_⟩
    unfold reinsert_markup_full
    simp only [htr, he]

/-- Witness for C6 (amended): the concrete segment `in the <b> </b> much`
whose generator yields one empty-region triple; with the opening index
aligned the pair-change is recorded, with it unaligned the full
reinsertion errors. -/
theorem C6_empty_region_witness :
    (∃ c cs, alistLookup [((0 : Int), [0]), (1, [1]), (2, [2])] (1 : Int) = some (c :: cs) ∧
      ((c + 1, joinSpace [lit "<b>", lit "</b>"]) ∈ ([(2, lit "<b> </b>")] : List (Nat × Str)))) ∧
    (∃ e, reinsert_markup_full (lit "in the <b> </b> much") (lit "dans le beaucoup")
        [((0, 1), (0, 1)), ((2, 2), (2, 2))] [(0, [0]), (2, [2])] = .error e) :=
  ⟨(C6_empty_region (lit "in the <b> </b> much") (lit "dans le beaucoup")
      [((0, 1), (0, 1)), ((2, 2), (2, 2))] [((0 : Int), [0]), (1, [1]), (2, [2])]
      [((1, lit "<b>"), [], some (2, lit "</b>"))] (1, lit "<b>") (2, lit "</b>")
      (by decide) (by decide)).1 [(2, lit "<b> </b>")] (by decide),
   (C6_empty_region (lit "in the <b> </b> much") (lit "dans le beaucoup")
      [((0, 1), (0, 1)), ((2, 2), (2, 2))] [(0, [0]), (2, [2])]
      [((1, lit "<b>"), [], some (2, lit "</b>"))] (1, lit "<b>") (2, lit "</b>")
      (by decide) (by decide)).2 (Or.inl (by decide))⟩

/-- C6 counterexample: the empty-content tag pair of
`in the <b> </b> much` with its opening index unaligned makes
`_reinsert_markup_full` raise (`KeyError`), instead of appending the pair
at the end of the target sequence. -/
theorem C6_counterexample :
    reinsert_markup_full (lit "in the <b> </b> much") (lit "dans le beaucoup")
      [((0, 1), (0, 1)), ((2, 2), (2, 2))] [(0, [0]), (2, [2])]
    = Except.error ReinsertErr.keyMissing := by decide

/-! ## Claim C7: supporting definitions -/

/-- All tag tokens stored in a position map, in map order. -/
def flattenVals (m : List (Int × List Str)) : List Str := (m.map Prod.snd).flatten

/-- The key lies outside every source span of the segmentation. -/
def outsideAllB (segm : List ((Nat × Nat) × (Nat × Nat))) (k : Int) : Bool :=
  segm.all (fun pr => !(decide ((pr.1.1 : Int) ≤ k ∧ k ≤ (pr.1.2 : Int))))

/-- The target phrases of `_reinsert_markup_segmentation`, sorted by target
span. -/
def segmPhrasesSorted (src tgt : Str) (segm : List ((Nat × Nat) × (Nat × Nat))) :
    List (((Nat × Nat) × (Nat × Nat)) × List Str × List Str) :=
  sortByKey (fun a b => lexLE a.1.2 b.1.2) (segm.map (fun st =>
    (st, pySlice (tokenize_keep_markup src) st.1.1 (st.1.2 + 1),
     pySlice (splitOnSpace tgt) st.2.1 (st.2.2 + 1))))

/-- The phrase walk of `_reinsert_markup_segmentation`: emitted tokens and
the two leftover tag maps. -/
def segmWalkResult (src tgt : Str) (segm : List ((Nat × Nat) × (Nat × Nat))) :
    List Str × List (Int × List Str) × List (Int × List Str) :=
  walkPhrases (segmPhrasesSorted src tgt segm)
    (tagIndexesSegm (tokenize_keep_markup src)).1
    (tagIndexesSegm (tokenize_keep_markup src)).2 []

/-! ### Key sets of the position maps -/

theorem alistAppend_keys {κ : Type} [DecidableEq κ] :
    ∀ (al : List (κ × List Str)) (k : κ) (v : Str),
      (alistAppend al k v).map Prod.fst =
        if k ∈ al.map Prod.fst then al.map Prod.fst else al.map Prod.fst ++ [k] := by
  intro al
  induction al with
  | nil => intro k v; simp [alistAppend]
  | cons kv rest ih =>
    intro k v
    obtain ⟨k', vs⟩ := kv
    simp only [alistAppend]
    by_cases hk : k' = k
    · subst hk
      simp
    · rw [if_neg hk]
      simp only [List.map_cons, List.mem_cons]
      rw [ih k v]
      by_cases hmem : k ∈ rest.map Prod.fst
      · simp [hmem, hk]
      · have hne : ¬ k = k' := fun h => hk h.symm
        simp [hmem, hne]

theorem alistAppend_nodup {κ : Type} [DecidableEq κ] (al : List (κ × List Str)) (k : κ)
    (v : Str) (h : (al.map Prod.fst).Nodup) :
    ((alistAppend al k v).map Prod.fst).Nodup := by
  rw [alistAppend_keys]
  by_cases hmem : k ∈ al.map Prod.fst
  · simpa [hmem] using h
  · simp only [hmem, if_false]
    simp [List.nodup_append, h, hmem]

theorem tagIndexesSegmAux_nodup :
    ∀ (toks : List Str) (i off : Nat) (op cl : List (Int × List Str)),
      (op.map Prod.fst).Nodup → (cl.map Prod.fst).Nodup →
      ((tagIndexesSegmAux i off toks op cl).1.map Prod.fst).Nodup ∧
      ((tagIndexesSegmAux i off toks op cl).2.map Prod.fst).Nodup := by
  intro toks
  induction toks with
  | nil => intro i off op cl h1 h2; exact ⟨h1, h2⟩
  | cons tok rest ih =>
    intro i off op cl h1 h2
    simp only [tagIndexesSegmAux]
    by_cases hop : (isOpeningTag tok || isSelfclosingTag tok) = true
    · rw [if_pos hop]
      exact ih _ _ _ _ (alistAppend_nodup _ _ _ h1) h2
    · rw [if_neg hop]
      by_cases hcl : isClosingTag tok = true
      · rw [if_pos hcl]
        exact ih _ _ _ _ h1 (alistAppend_nodup _ _ _ h2)
      · rw [if_neg hcl]
        exact ih _ _ _ _ h1 h2

theorem tagIndexesSegm_nodup (toks : List Str) :
    (((tagIndexesSegm toks).1.map Prod.fst).Nodup) ∧
    (((tagIndexesSegm toks).2.map Prod.fst).Nodup) :=
  tagIndexesSegmAux_nodup toks 0 0 [] [] (by simp) (by simp)

/-! ### Erasure as filtering -/

theorem alistLookup_none_not_mem {κ ν : Type} [DecidableEq κ] :
    ∀ (al : List (κ × ν)) (k : κ), alistLookup al k = none → ∀ kv ∈ al, kv.1 ≠ k := by
  intro al
  induction al with
  | nil => intro k _ kv h; simp at h
  | cons kv' rest ih =>
    intro k hl kv hm
    obtain ⟨k', v'⟩ := kv'
    simp only [alistLookup] at hl
    by_cases hk : k' = k
    · rw [if_pos hk] at hl; simp at hl
    · rw [if_neg hk] at hl
      rcases List.mem_cons.mp hm with rfl | hm'
      · exact hk
      · exact ih k hl kv hm'

theorem alistErase_of_none {κ ν : Type} [DecidableEq κ] :
    ∀ (al : List (κ × ν)) (k : κ), alistLookup al k = none → alistErase al k = al := by
  intro al
  induction al with
  | nil => intro k _; rfl
  | cons kv rest ih =>
    intro k hl
    obtain ⟨k', v'⟩ := kv
    simp only [alistLookup] at hl
    simp only [alistErase]
    by_cases hk : k' = k
    · rw [if_pos hk] at hl; simp at hl
    · rw [if_neg hk] at hl
      rw [if_neg hk, ih k hl]

theorem alistErase_eq_filter {ν : Type} :
    ∀ (al : List (Int × ν)) (k : Int), (al.map Prod.fst).Nodup →
      alistErase al k = al.filter (fun kv => kv.1 != k) := by
  intro al
  induction al with
  | nil => intro k _; rfl
  | cons kv rest ih =>
    intro k hnd
    obtain ⟨k', v'⟩ := kv
    have hnd2 := List.nodup_cons.mp (by simpa using hnd :
      (k' :: rest.map Prod.fst).Nodup)
    simp only [alistErase, List.filter_cons]
    by_cases hk : k' = k
    · subst hk
      rw [if_pos rfl]
      have hbne : ((k', v').1 != k') = false := by simp
      rw [hbne]
      simp only [Bool.false_eq_true, if_false]
      symm
      rw [List.filter_eq_self]
      intro kv hm
      simp only [bne_iff_ne, ne_eq]
      intro heq
      exact hnd2.1 (List.mem_map.mpr ⟨kv, hm, heq⟩)
    · rw [if_neg hk]
      have hbne : ((k', v').1 != k) = true := by simpa using hk
      rw [hbne]
      simp only [if_true]
      rw [ih k hnd2.2]

/-! ### The phrase walk leaves exactly the unvisited keys -/

theorem map_fst_filter_sublist {ν : Type} (al : List (Int × ν)) (p : Int × ν → Bool) :
    ((al.filter p).map Prod.fst).Sublist (al.map Prod.fst) :=
  (al.filter_sublist).map Prod.fst

theorem phraseStep_snd (m : List (Int × List Str)) (idx : Int) (acc : List Str)
    (h : (m.map Prod.fst).Nodup) :
    (phraseStep m idx acc).2 = m.filter (fun kv => kv.1 != idx) := by
  unfold phraseStep
  cases hl : alistLookup m idx with
  | some ts => simpa using alistErase_eq_filter m idx h
  | none =>
    have hnm := alistLookup_none_not_mem m idx hl
    show m = _
    symm
    rw [List.filter_eq_self]
    intro kv hm
    simpa using hnm kv hm

theorem phraseStep_snd_nodup (m : List (Int × List Str)) (idx : Int) (acc : List Str)
    (h : (m.map Prod.fst).Nodup) :
    (((phraseStep m idx acc).2).map Prod.fst).Nodup := by
  rw [phraseStep_snd m idx acc h]
  exact h.sublist ((List.filter_sublist m).map Prod.fst)

theorem collectPhrase_maps :
    ∀ (idxs : List Int) (op cl : List (Int × List Str)) (ao ac : List Str),
      (op.map Prod.fst).Nodup → (cl.map Prod.fst).Nodup →
      (collectPhrase idxs op cl ao ac).2.2.1
          = op.filter (fun kv => !decide (kv.1 ∈ idxs)) ∧
      (collectPhrase idxs op cl ao ac).2.2.2
          = cl.filter (fun kv => !decide (kv.1 ∈ idxs)) := by
  intro idxs
  induction idxs with
  | nil =>
    intro op cl ao ac _ _
    simp [collectPhrase]
  | cons idx rest ih =>
    intro op cl ao ac hop hcl
    obtain ⟨h1, h2⟩ := ih (phraseStep op idx ao).2 (phraseStep cl idx ac).2
      (phraseStep op idx ao).1 (phraseStep cl idx ac).1
      (phraseStep_snd_nodup op idx ao hop) (phraseStep_snd_nodup cl idx ac hcl)
    have hpoint : ∀ (m : List (Int × List Str)), ∀ kv ∈ m,
        ((kv.1 != idx) && !decide (kv.1 ∈ rest)) = !decide (kv.1 ∈ idx :: rest) := by
      intro m kv _
      by_cases he : kv.1 = idx <;> by_cases hm : kv.1 ∈ rest <;> simp [he, hm]
    constructor
    · show (collectPhrase rest (phraseStep op idx ao).2 (phraseStep cl idx ac).2
        (phraseStep op idx ao).1 (phraseStep cl idx ac).1).2.2.1 = _
      rw [h1, phraseStep_snd op idx ao hop, List.filter_filter]
      exact List.filter_congr (fun kv hm => by
        have := hpoint op kv hm
        simpa [Bool.and_comm] using this)
    · show (collectPhrase rest (phraseStep op idx ao).2 (phraseStep cl idx ac).2
        (phraseStep op idx ao).1 (phraseStep cl idx ac).1).2.2.2 = _
      rw [h2, phraseStep_snd cl idx ac hcl, List.filter_filter]
      exact List.filter_congr (fun kv hm => by
        have := hpoint cl kv hm
        simpa [Bool.and_comm] using this)

theorem walkPhrases_maps :
    ∀ (phs : List (((Nat × Nat) × (Nat × Nat)) × List Str × List Str))
      (op cl : List (Int × List Str)),
      (op.map Prod.fst).Nodup → (cl.map Prod.fst).Nodup → ∀ (out : List Str),
      (walkPhrases phs op cl out).2.1
          = op.filter (fun kv =>
              phs.all (fun ph => !decide (kv.1 ∈ indexesFromSegmentation ph.1.1))) ∧
      (walkPhrases phs op cl out).2.2
          = cl.filter (fun kv =>
              phs.all (fun ph => !decide (kv.1 ∈ indexesFromSegmentation ph.1.1))) := by
  intro phs
  induction phs with
  | nil =>
    intro op cl _ _ out
    simp [walkPhrases]
  | cons ph rest ih =>
    intro op cl hop hcl out
    obtain ⟨hcp1, hcp2⟩ :=
      collectPhrase_maps (indexesFromSegmentation ph.1.1) op cl [] [] hop hcl
    have hop' : (((collectPhrase (indexesFromSegmentation ph.1.1) op cl [] []).2.2.1).map
        Prod.fst).Nodup := by
      rw [hcp1]; exact hop.sublist (map_fst_filter_sublist op _)
    have hcl' : (((collectPhrase (indexesFromSegmentation ph.1.1) op cl [] []).2.2.2).map
        Prod.fst).Nodup := by
      rw [hcp2]; exact hcl.sublist (map_fst_filter_sublist cl _)
    obtain ⟨h1, h2⟩ := ih (collectPhrase (indexesFromSegmentation ph.1.1) op cl [] []).2.2.1
      (collectPhrase (indexesFromSegmentation ph.1.1) op cl [] []).2.2.2 hop' hcl'
      (out ++ (collectPhrase (indexesFromSegmentation ph.1.1) op cl [] []).1
        ++ ph.2.2 ++ (collectPhrase (indexesFromSegmentation ph.1.1) op cl [] []).2.1)
    constructor
    · show (walkPhrases rest
        (collectPhrase (indexesFromSegmentation ph.1.1) op cl [] []).2.2.1
        (collectPhrase (indexesFromSegmentation ph.1.1) op cl [] []).2.2.2
        (out ++ (collectPhrase (indexesFromSegmentation ph.1.1) op cl [] []).1
          ++ ph.2.2 ++ (collectPhrase (indexesFromSegmentation ph.1.1) op cl [] []).2.1)).2.1
        = _
      rw [h1, hcp1, List.filter_filter]
      exact List.filter_congr (fun kv hm => by
        simp [List.all_cons, Bool.and_comm])
    · show (walkPhrases rest
        (collectPhrase (indexesFromSegmentation ph.1.1) op cl [] []).2.2.1
        (collectPhrase (indexesFromSegmentation ph.1.1) op cl [] []).2.2.2
        (out ++ (collectPhrase (indexesFromSegmentation ph.1.1) op cl [] []).1
          ++ ph.2.2 ++ (collectPhrase (indexesFromSegmentation ph.1.1) op cl [] []).2.1)).2.2
        = _
      rw [h2, hcp2, List.filter_filter]
      exact List.filter_congr (fun kv hm => by
        simp [List.all_cons, Bool.and_comm])

theorem mem_indexesFromSegmentation (se : Nat × Nat) (k : Int) :
    k ∈ indexesFromSegmentation se ↔ ((se.1 : Int) ≤ k ∧ k ≤ (se.2 : Int)) := by
  unfold indexesFromSegmentation
  simp only [List.mem_map, List.mem_range'_1]
  constructor
  · rintro ⟨n, ⟨ha, hb⟩, rfl⟩
    omega
  · rintro ⟨h1, h2⟩
    exact ⟨k.toNat, ⟨by omega, by omega⟩, by omega⟩

theorem perm_all {α : Type} {l₁ l₂ : List α} (h : l₁.Perm l₂) (p : α → Bool) :
    l₁.all p = l₂.all p := by
  cases hb : l₁.all p with
  | true =>
    symm
    rw [List.all_eq_true] at hb ⊢
    intro x hx
    exact hb x (h.mem_iff.mpr hx)
  | false =>
    symm
    rw [List.all_eq_false] at hb ⊢
    obtain ⟨x, hx, hpx⟩ := hb
    exact ⟨x, h.mem_iff.mp hx, hpx⟩

theorem insertBy_perm {α : Type} (le : α → α → Bool) (x : α) :
    ∀ l : List α, (insertBy le x l).Perm (x :: l) := by
  intro l
  induction l with
  | nil => exact List.Perm.refl _
  | cons y rest ih =>
    unfold insertBy
    by_cases h : le x y = true
    · rw [if_pos h]
    · rw [if_neg h]
      exact (ih.cons y).trans (List.Perm.swap x y rest)

theorem sortByKey_perm {α : Type} (le : α → α → Bool) :
    ∀ l : List α, (sortByKey le l).Perm l := by
  intro l
  induction l with
  | nil => exact List.Perm.refl _
  | cons x rest ih =>
    exact (insertBy_perm le x (sortByKey le rest)).trans (ih.cons x)

theorem all_map_het {α β : Type} (f : α → β) (p : β → Bool) :
    ∀ l : List α, (l.map f).all p = l.all (fun a => p (f a)) := by
  intro l
  induction l with
  | nil => rfl
  | cons x rest ih => simp [List.all_cons, ih]

theorem sortedPhrases_all_eq (src tgt : Str) (segm : List ((Nat × Nat) × (Nat × Nat)))
    (k : Int) :
    (segmPhrasesSorted src tgt segm).all
        (fun ph => !decide (k ∈ indexesFromSegmentation ph.1.1))
      = outsideAllB segm k := by
  unfold segmPhrasesSorted outsideAllB
  rw [perm_all (sortByKey_perm _ _) _, all_map_het]
  refine congrArg (List.all segm) (funext fun st => ?_)
  exact congrArg (fun b => !b) (decide_eq_decide.mpr (mem_indexesFromSegmentation st.1 k))

theorem segmWalk_leftovers (src tgt : Str) (segm : List ((Nat × Nat) × (Nat × Nat))) :
    (segmWalkResult src tgt segm).2.1
        = (tagIndexesSegm (tokenize_keep_markup src)).1.filter
            (fun kv => outsideAllB segm kv.1) ∧
    (segmWalkResult src tgt segm).2.2
        = (tagIndexesSegm (tokenize_keep_markup src)).2.filter
            (fun kv => outsideAllB segm kv.1) := by
  obtain ⟨h1, h2⟩ := walkPhrases_maps (segmPhrasesSorted src tgt segm)
    (tagIndexesSegm (tokenize_keep_markup src)).1
    (tagIndexesSegm (tokenize_keep_markup src)).2
    (tagIndexesSegm_nodup _).1 (tagIndexesSegm_nodup _).2 []
  constructor
  · rw [show (segmWalkResult src tgt segm).2.1 = (walkPhrases (segmPhrasesSorted src tgt segm)
      (tagIndexesSegm (tokenize_keep_markup src)).1
      (tagIndexesSegm (tokenize_keep_markup src)).2 []).2.1 from rfl, h1]
    exact List.filter_congr (fun kv _ => sortedPhrases_all_eq src tgt segm kv.1)
  · rw [show (segmWalkResult src tgt segm).2.2 = (walkPhrases (segmPhrasesSorted src tgt segm)
      (tagIndexesSegm (tokenize_keep_markup src)).1
      (tagIndexesSegm (tokenize_keep_markup src)).2 []).2.2 from rfl, h2]
    exact List.filter_congr (fun kv _ => sortedPhrases_all_eq src tgt segm kv.1)

/-! ### Multiset accounting: every tag is emitted exactly once -/

theorem flattenVals_cons (k : Int) (v : List Str) (rest : List (Int × List Str)) :
    flattenVals ((k, v) :: rest) = v ++ flattenVals rest := rfl

theorem fv_erase_ms :
    ∀ (m : List (Int × List Str)) (k : Int) (ts : List Str),
      alistLookup m k = some ts →
      (↑(flattenVals m) : Multiset Str) = ↑ts + ↑(flattenVals (alistErase m k)) := by
  intro m
  induction m with
  | nil => intro k ts h; simp [alistLookup] at h
  | cons kv rest ih =>
    intro k ts h
    obtain ⟨k', v⟩ := kv
    simp only [alistLookup] at h
    by_cases hk : k' = k
    · rw [if_pos hk] at h
      have hv : v = ts := by simpa using h
      subst hv
      simp only [alistErase, if_pos hk, flattenVals_cons]
      rw [← Multiset.coe_add]
    · rw [if_neg hk] at h
      simp only [alistErase, if_neg hk, flattenVals_cons]
      rw [← Multiset.coe_add, ← Multiset.coe_add, ih k ts h]
      abel

theorem phraseStep_ms (m : List (Int × List Str)) (idx : Int) (acc : List Str) :
    (↑(phraseStep m idx acc).1 : Multiset Str) + ↑(flattenVals (phraseStep m idx acc).2)
      = ↑acc + ↑(flattenVals m) := by
  unfold phraseStep
  cases hl : alistLookup m idx with
  | some ts =>
    simp only
    rw [fv_erase_ms m idx ts hl, ← Multiset.coe_add]
    abel
  | none => rfl

theorem collectPhrase_ms :
    ∀ (idxs : List Int) (op cl : List (Int × List Str)) (ao ac : List Str),
      ((↑(collectPhrase idxs op cl ao ac).1 : Multiset Str)
          + ↑(flattenVals (collectPhrase idxs op cl ao ac).2.2.1)
        = ↑ao + ↑(flattenVals op)) ∧
      ((↑(collectPhrase idxs op cl ao ac).2.1 : Multiset Str)
          + ↑(flattenVals (collectPhrase idxs op cl ao ac).2.2.2)
        = ↑ac + ↑(flattenVals cl)) := by
  intro idxs
  induction idxs with
  | nil => intro op cl ao ac; exact ⟨rfl, rfl⟩
  | cons idx rest ih =>
    intro op cl ao ac
    obtain ⟨h1, h2⟩ := ih (phraseStep op idx ao).2 (phraseStep cl idx ac).2
      (phraseStep op idx ao).1 (phraseStep cl idx ac).1
    constructor
    · show (↑(collectPhrase rest (phraseStep op idx ao).2 (phraseStep cl idx ac).2
          (phraseStep op idx ao).1 (phraseStep cl idx ac).1).1 : Multiset Str)
          + ↑(flattenVals (collectPhrase rest (phraseStep op idx ao).2
              (phraseStep cl idx ac).2 (phraseStep op idx ao).1
              (phraseStep cl idx ac).1).2.2.1)
        = ↑ao + ↑(flattenVals op)
      rw [h1]
      exact phraseStep_ms op idx ao
    · show (↑(collectPhrase rest (phraseStep op idx ao).2 (phraseStep cl idx ac).2
          (phraseStep op idx ao).1 (phraseStep cl idx ac).1).2.1 : Multiset Str)
          + ↑(flattenVals (collectPhrase rest (phraseStep op idx ao).2
              (phraseStep cl idx ac).2 (phraseStep op idx ao).1
              (phraseStep cl idx ac).1).2.2.2)
        = ↑ac + ↑(flattenVals cl)
      rw [h2]
      exact phraseStep_ms cl idx ac

theorem walkPhrases_ms :
    ∀ (phs : List (((Nat × Nat) × (Nat × Nat)) × List Str × List Str))
      (op cl : List (Int × List Str)) (out : List Str),
      (↑(walkPhrases phs op cl out).1 : Multiset Str)
          + ↑(flattenVals (walkPhrases phs op cl out).2.1)
          + ↑(flattenVals (walkPhrases phs op cl out).2.2)
        = ↑out + ↑((phs.map (fun ph => ph.2.2)).flatten)
          + ↑(flattenVals op) + ↑(flattenVals cl) := by
  intro phs
  induction phs with
  | nil =>
    intro op cl out
    show (↑out : Multiset Str) + ↑(flattenVals op) + ↑(flattenVals cl) = _
    simp
  | cons ph rest ih =>
    intro op cl out
    obtain ⟨h1, h2⟩ := collectPhrase_ms (indexesFromSegmentation ph.1.1) op cl [] []
    have h1' : (↑(collectPhrase (indexesFromSegmentation ph.1.1) op cl [] []).1 :
          Multiset Str)
        + ↑(flattenVals (collectPhrase (indexesFromSegmentation ph.1.1) op cl [] []).2.2.1)
        = ↑(flattenVals op) := by simpa using h1
    have h2' : (↑(collectPhrase (indexesFromSegmentation ph.1.1) op cl [] []).2.1 :
          Multiset Str)
        + ↑(flattenVals (collectPhrase (indexesFromSegmentation ph.1.1) op cl [] []).2.2.2)
        = ↑(flattenVals cl) := by simpa using h2
    show (↑(walkPhrases rest
          (collectPhrase (indexesFromSegmentation ph.1.1) op cl [] []).2.2.1
          (collectPhrase (indexesFromSegmentation ph.1.1) op cl [] []).2.2.2
          (out ++ (collectPhrase (indexesFromSegmentation ph.1.1) op cl [] []).1
            ++ ph.2.2
            ++ (collectPhrase (indexesFromSegmentation ph.1.1) op cl [] []).2.1)).1 :
        Multiset Str)
        + ↑(flattenVals (walkPhrases rest
            (collectPhrase (indexesFromSegmentation ph.1.1) op cl [] []).2.2.1
            (collectPhrase (indexesFromSegmentation ph.1.1) op cl [] []).2.2.2
            (out ++ (collectPhrase (indexesFromSegmentation ph.1.1) op cl [] []).1
              ++ ph.2.2
              ++ (collectPhrase (indexesFromSegmentation ph.1.1) op cl [] []).2.1)).2.1)
        + ↑(flattenVals (walkPhrases rest
            (collectPhrase (indexesFromSegmentation ph.1.1) op cl [] []).2.2.1
            (collectPhrase (indexesFromSegmentation ph.1.1) op cl [] []).2.2.2
            (out ++ (collectPhrase (indexesFromSegmentation ph.1.1) op cl [] []).1
              ++ ph.2.2
              ++ (collectPhrase (indexesFromSegmentation ph.1.1) op cl [] []).2.1)).2.2)
        = ↑out + ↑(((ph :: rest).map (fun ph => ph.2.2)).flatten)
          + ↑(flattenVals op) + ↑(flattenVals cl)
    rw [ih]
    simp only [List.map_cons, List.flatten_cons, ← Multiset.coe_add]
    rw [← h1', ← h2']
    abel

/-! ### `appendLeftovers` emits the leftover tags sorted by source position -/

theorem perm_flatMap {α β : Type} (f : α → List β) :
    ∀ {l₁ l₂ : List α}, l₁.Perm l₂ → (l₁.flatMap f).Perm (l₂.flatMap f) := by
  intro l₁ l₂ h
  induction h with
  | nil => exact List.Perm.refl _
  | cons x _ ih =>
    simp only [List.flatMap_cons]
    exact ih.append_left (f x)
  | swap x y l =>
    simp only [List.flatMap_cons]
    rw [← List.append_assoc, ← List.append_assoc]
    exact (List.perm_append_comm).append_right _
  | trans _ _ ih1 ih2 => exact ih1.trans ih2

theorem flattenVals_eq_flatMap (m : List (Int × List Str)) :
    flattenVals m = m.flatMap Prod.snd := by
  induction m with
  | nil => rfl
  | cons kv rest ih =>
    obtain ⟨k, v⟩ := kv
    simp only [flattenVals_cons, List.flatMap_cons, ih]

theorem map_fst_insertBy {ν : Type} (x : Int × ν) :
    ∀ l : List (Int × ν),
      (insertBy (fun a b => a.1 ≤ b.1) x l).map Prod.fst
        = insertBy (fun a b => a ≤ b) x.1 (l.map Prod.fst) := by
  intro l
  induction l with
  | nil => rfl
  | cons y rest ih =>
    by_cases h : (decide (x.1 ≤ y.1)) = true
    · simp [insertBy, h]
    · simp [insertBy, h, ih]

theorem map_fst_sortByKey {ν : Type} :
    ∀ l : List (Int × ν),
      (sortByKey (fun a b => a.1 ≤ b.1) l).map Prod.fst
        = sortByKey (fun a b => a ≤ b) (l.map Prod.fst) := by
  intro l
  induction l with
  | nil => rfl
  | cons x rest ih =>
    simp only [sortByKey]
    rw [map_fst_insertBy, ih]

theorem alistLookup_of_mem_nodup {κ ν : Type} [DecidableEq κ] :
    ∀ (m : List (κ × ν)), (m.map Prod.fst).Nodup →
      ∀ kv ∈ m, alistLookup m kv.1 = some kv.2 := by
  intro m
  induction m with
  | nil => intro _ kv h; simp at h
  | cons kv' rest ih =>
    intro hnd kv hm
    obtain ⟨k', v'⟩ := kv'
    have hnd2 := List.nodup_cons.mp (by simpa using hnd :
      (k' :: rest.map Prod.fst).Nodup)
    rcases List.mem_cons.mp hm with rfl | hm'
    · simp [alistLookup]
    · have hne : k' ≠ kv.1 := fun h => hnd2.1 (by
        rw [h]
        exact List.mem_map.mpr ⟨kv, hm', rfl⟩)
      simp only [alistLookup, if_neg hne]
      exact ih hnd2.2 kv hm'

theorem flatMap_lookup {ν : Type} (m : List (Int × List ν)) :
    ∀ l : List (Int × List ν), (∀ kv ∈ l, alistLookup m kv.1 = some kv.2) →
      (l.map Prod.fst).flatMap (fun k => (alistLookup m k).getD [])
        = l.flatMap Prod.snd := by
  intro l
  induction l with
  | nil => intro _; rfl
  | cons kv rest ih =>
    intro h
    simp only [List.map_cons, List.flatMap_cons]
    rw [h kv (List.mem_cons_self kv rest),
      ih (fun kv' h' => h kv' (List.mem_cons_of_mem _ h'))]
    rfl

theorem appendLeftovers_eq_sorted (m : List (Int × List Str))
    (h : (m.map Prod.fst).Nodup) :
    appendLeftovers m = flattenVals (sortByKey (fun a b => a.1 ≤ b.1) m) := by
  unfold appendLeftovers sortInts
  rw [← map_fst_sortByKey m,
    flatMap_lookup m (sortByKey (fun a b => a.1 ≤ b.1) m)
      (fun kv hm => alistLookup_of_mem_nodup m h kv
        ((sortByKey_perm (fun a b => a.1 ≤ b.1) m).mem_iff.mp hm)),
    flattenVals_eq_flatMap]

/-- C7: in the segmentation reinsertion strategy with `force_all`, the output is
the phrase-walk tokens followed by the leftover opening tags and then the
leftover closing tags (openings before closings, appended at the end rather
than dropped); the leftover maps hold exactly the tags whose source position
lies outside every segmentation source span; each leftover block lists its tags
grouped by ascending source position; and overall the emitted tokens are a
permutation of the sorted target phrase tokens together with every collected
source tag, so each tag is emitted exactly once. -/
theorem C7_segmentation_force_all (src tgt : Str)
    (segm : List ((Nat × Nat) × (Nat × Nat))) :
    reinsert_markup_segmentation true src tgt segm
        = joinSpace ((segmWalkResult src tgt segm).1
            ++ appendLeftovers (segmWalkResult src tgt segm).2.1
            ++ appendLeftovers (segmWalkResult src tgt segm).2.2) ∧
    (segmWalkResult src tgt segm).2.1
        = (tagIndexesSegm (tokenize_keep_markup src)).1.filter
            (fun kv => outsideAllB segm kv.1) ∧
    (segmWalkResult src tgt segm).2.2
        = (tagIndexesSegm (tokenize_keep_markup src)).2.filter
            (fun kv => outsideAllB segm kv.1) ∧
    appendLeftovers (segmWalkResult src tgt segm).2.1
        = flattenVals (sortByKey (fun a b => a.1 ≤ b.1)
            (segmWalkResult src tgt segm).2.1) ∧
    appendLeftovers (segmWalkResult src tgt segm).2.2
        = flattenVals (sortByKey (fun a b => a.1 ≤ b.1)
            (segmWalkResult src tgt segm).2.2) ∧
    ((segmWalkResult src tgt segm).1
        ++ appendLeftovers (segmWalkResult src tgt segm).2.1
        ++ appendLeftovers (segmWalkResult src tgt segm).2.2).Perm
      ((((segmPhrasesSorted src tgt segm).map (fun ph => ph.2.2)).flatten)
        ++ flattenVals (tagIndexesSegm (tokenize_keep_markup src)).1
        ++ flattenVals (tagIndexesSegm (tokenize_keep_markup src)).2) := by
  have hnd1 := (tagIndexesSegm_nodup (tokenize_keep_markup src)).1
  have hnd2 := (tagIndexesSegm_nodup (tokenize_keep_markup src)).2
  obtain ⟨hl1, hl2⟩ := segmWalk_leftovers src tgt segm
  have hndw1 : (((segmWalkResult src tgt segm).2.1).map Prod.fst).Nodup := by
    rw [hl1]
    exact hnd1.sublist (map_fst_filter_sublist _ _)
  have hndw2 : (((segmWalkResult src tgt segm).2.2).map Prod.fst).Nodup := by
    rw [hl2]
    exact hnd2.sublist (map_fst_filter_sublist _ _)
  refine ⟨rfl, hl1, hl2, appendLeftovers_eq_sorted _ hndw1,
    appendLeftovers_eq_sorted _ hndw2, ?_⟩
  have hA1 : (↑(appendLeftovers (segmWalkResult src tgt segm).2.1) : Multiset Str)
      = ↑(flattenVals (segmWalkResult src tgt segm).2.1) := by
    rw [appendLeftovers_eq_sorted _ hndw1, flattenVals_eq_flatMap, flattenVals_eq_flatMap]
    exact Multiset.coe_eq_coe.mpr (perm_flatMap Prod.snd (sortByKey_perm _ _))
  have hA2 : (↑(appendLeftovers (segmWalkResult src tgt segm).2.2) : Multiset Str)
      = ↑(flattenVals (segmWalkResult src tgt segm).2.2) := by
    rw [appendLeftovers_eq_sorted _ hndw2, flattenVals_eq_flatMap, flattenVals_eq_flatMap]
    exact Multiset.coe_eq_coe.mpr (perm_flatMap Prod.snd (sortByKey_perm _ _))
  have hms := walkPhrases_ms (segmPhrasesSorted src tgt segm)
    (tagIndexesSegm (tokenize_keep_markup src)).1
    (tagIndexesSegm (tokenize_keep_markup src)).2 []
  have hms' : (↑(segmWalkResult src tgt segm).1 : Multiset Str)
      + ↑(flattenVals (segmWalkResult src tgt segm).2.1)
      + ↑(flattenVals (segmWalkResult src tgt segm).2.2)
      = ↑(((segmPhrasesSorted src tgt segm).map (fun ph => ph.2.2)).flatten)
        + ↑(flattenVals (tagIndexesSegm (tokenize_keep_markup src)).1)
        + ↑(flattenVals (tagIndexesSegm (tokenize_keep_markup src)).2) := by
    simpa using hms
  apply Multiset.coe_eq_coe.mp
  simp only [← Multiset.coe_add]
  rw [hA1, hA2]
  exact hms'

end Mtrain
